import Mathlib

/-!
Verification of the traffic-dispatch core of the API-Gateway repository.

The Go sources are embedded shallowly: each Go function that a claim
depends on becomes a Lean function over explicit state values, and the
claims become theorems about those functions.  Machine integers (`int`,
`int64`) are modelled as `Int`; the round-robin `uint64` counter is a
`Nat` reduced modulo `2 ^ 64` exactly where the Go code wraps.  Mutexes
and atomics serialize the Go operations, so each operation is embedded
as a sequential state transformer.
-/

namespace APIGateway

/-- A backend upstream endpoint (`loadbalancer.Backend`): URL identity,
static weight, connection cap (`0` = unlimited), current connection
count and the mutable health flag.  The `LastCheck` timestamp carries no
behaviour used by any claim and is omitted. -/
structure Backend where
  url : String
  weight : Int
  maxConnections : Int
  currentConns : Int
  healthy : Bool
deriving Repr, DecidableEq

/-- Placeholder backend used as the (never-reached) default of indexed
list accesses that the Go code performs on indices known to be in
bounds. -/
def dummyBackend : Backend := ⟨"", 0, 0, 0, false⟩

/-- `Backend.IsHealthy`: reads the health flag. -/
def Backend.isHealthy (b : Backend) : Bool := b.healthy

/-- `Backend.CanAcceptConnection`: `healthy && (max == 0 || current < max)`. -/
def Backend.canAcceptConnection (b : Backend) : Bool :=
  b.isHealthy && (b.maxConnections == 0 || b.currentConns < b.maxConnections)

/-- `Backend.SetHealthy`: sets the health flag. -/
def Backend.setHealthy (b : Backend) (h : Bool) : Backend := { b with healthy := h }

/-- `Backend.AddConnection`: atomic increment of the connection counter. -/
def Backend.addConnection (b : Backend) : Backend :=
  { b with currentConns := b.currentConns + 1 }

/-- `Backend.RemoveConnection`: atomic decrement of the connection counter. -/
def Backend.removeConnection (b : Backend) : Backend :=
  { b with currentConns := b.currentConns - 1 }

/-- The healthy-backend filtering loop shared by the round-robin, IP-hash
and random balancers: keep the backends whose `CanAcceptConnection` is
true, in order. -/
def filterAcceptable (bs : List Backend) : List Backend :=
  bs.filter (fun b => b.canAcceptConnection)

/-- `UpdateBackendHealth` body shared by every balancer: walk the list,
set the health flag of the first backend whose URL matches, leave the
rest untouched (the Go loop `break`s after the first match). -/
def updateFirstByURL : List Backend → String → Bool → List Backend
  | [], _, _ => []
  | b :: rest, u, h =>
      if b.url = u then b.setHealthy h :: rest
      else b :: updateFirstByURL rest u h

/-! ### Round-robin balancer -/

/-- `RoundRobinBalancer`: backend list plus the monotonically advanced
`uint64` counter (kept below `2 ^ 64`). -/
structure RoundRobinBalancer where
  backends : List Backend
  current : Nat
deriving Repr, DecidableEq

/-- `RoundRobinBalancer.NextBackend`: on a non-empty eligible subset,
advance the counter (with `uint64` wrap-around) and index the subset by
`(next - 1) mod len` computed in `uint64` arithmetic. -/
def RoundRobinBalancer.nextBackend (rr : RoundRobinBalancer) (_clientIP : String) :
    Option Backend × RoundRobinBalancer :=
  if rr.backends.length = 0 then (none, rr) else
  let healthyBackends := filterAcceptable rr.backends
  if h : healthyBackends.length = 0 then (none, rr) else
  let next := (rr.current + 1) % 2 ^ 64
  let idx := ((next + (2 ^ 64 - 1)) % 2 ^ 64) % healthyBackends.length
  (some (healthyBackends.get ⟨idx, Nat.mod_lt _ (Nat.pos_of_ne_zero h)⟩),
    { rr with current := next })

/-! ### Least-connections balancer -/

/-- `LeastConnectionsBalancer`: plain backend list. -/
structure LeastConnectionsBalancer where
  backends : List Backend
deriving Repr, DecidableEq

/-- The scan loop of `LeastConnectionsBalancer.NextBackend`: skip
ineligible backends; take a backend when the running minimum is the
`-1` sentinel or its connection count is strictly smaller. -/
def lcScan : List Backend → Option Backend → Int → Option Backend
  | [], sel, _ => sel
  | b :: rest, sel, minConns =>
      if !b.canAcceptConnection then lcScan rest sel minConns
      else
        let conns := b.currentConns
        if minConns == -1 || conns < minConns then lcScan rest (some b) conns
        else lcScan rest sel minConns

/-- `LeastConnectionsBalancer.NextBackend`. -/
def LeastConnectionsBalancer.nextBackend (lc : LeastConnectionsBalancer)
    (_clientIP : String) : Option Backend × LeastConnectionsBalancer :=
  if lc.backends.length = 0 then (none, lc)
  else (lcScan lc.backends none (-1), lc)

/-! ### IP-hash balancer -/

/-- One step of 32-bit FNV-1a: xor the byte in, multiply by the FNV
prime, truncate to 32 bits. -/
def fnv32aStep (hash byte : Nat) : Nat := ((hash ^^^ byte) * 16777619) % 2 ^ 32

/-- UTF-8 encoding of one character (the byte sequence Go's `[]byte`
conversion produces for it). -/
def utf8EncodeCharNat (c : Char) : List Nat :=
  let n := c.toNat
  if n < 0x80 then [n]
  else if n < 0x800 then [0xC0 ||| (n >>> 6), 0x80 ||| (n &&& 0x3F)]
  else if n < 0x10000 then
    [0xE0 ||| (n >>> 12), 0x80 ||| ((n >>> 6) &&& 0x3F), 0x80 ||| (n &&& 0x3F)]
  else
    [0xF0 ||| (n >>> 18), 0x80 ||| ((n >>> 12) &&& 0x3F),
      0x80 ||| ((n >>> 6) &&& 0x3F), 0x80 ||| (n &&& 0x3F)]

/-- UTF-8 bytes of a string (`[]byte(s)` in Go). -/
def utf8Bytes (s : String) : List Nat := s.data.flatMap utf8EncodeCharNat

/-- 32-bit FNV-1a over the UTF-8 bytes of a string
(`fnv.New32a(); hash.Write([]byte(s)); hash.Sum32()`). -/
def fnv32a (s : String) : Nat :=
  (utf8Bytes s).foldl fnv32aStep 2166136261

/-- `IPHashBalancer`: plain backend list. -/
structure IPHashBalancer where
  backends : List Backend
deriving Repr, DecidableEq

/-- `IPHashBalancer.NextBackend`: index the eligible subset by the
FNV-1a hash of the client IP modulo the subset size (the `uint32`
value cast to a 64-bit `int` is non-negative, so Go's `%` agrees with
`Nat.mod`). -/
def IPHashBalancer.nextBackend (ih : IPHashBalancer) (clientIP : String) :
    Option Backend × IPHashBalancer :=
  if ih.backends.length = 0 then (none, ih) else
  let healthyBackends := filterAcceptable ih.backends
  if h : healthyBackends.length = 0 then (none, ih) else
  let index := fnv32a clientIP % healthyBackends.length
  (some (healthyBackends.get ⟨index, Nat.mod_lt _ (Nat.pos_of_ne_zero h)⟩), ih)

/-! ### Random balancer -/

/-- `RandomBalancer`: plain backend list (the PRNG is external input). -/
structure RandomBalancer where
  backends : List Backend
deriving Repr, DecidableEq

/-- `RandomBalancer.NextBackend`: `rand.Intn(n)` produces some value in
`[0, n)`; the draw is modelled by an arbitrary natural number `r`
reduced modulo the eligible-subset size, which ranges over exactly the
values `Intn` can return. -/
def RandomBalancer.nextBackend (rb : RandomBalancer) (_clientIP : String) (r : Nat) :
    Option Backend × RandomBalancer :=
  if rb.backends.length = 0 then (none, rb) else
  let healthyBackends := filterAcceptable rb.backends
  if h : healthyBackends.length = 0 then (none, rb) else
  let index := r % healthyBackends.length
  (some (healthyBackends.get ⟨index, Nat.mod_lt _ (Nat.pos_of_ne_zero h)⟩), rb)

/-! ### Eligibility of every selected backend (C1) -/

/-- Members of the filtered subset are eligible. -/
theorem mem_filterAcceptable {bs : List Backend} {b : Backend}
    (hb : b ∈ filterAcceptable bs) : b.canAcceptConnection = true := by
  have := List.of_mem_filter hb
  simpa using this

/-- The least-connections scan only ever installs eligible backends. -/
theorem lcScan_eligible :
    ∀ (bs : List Backend) (sel : Option Backend) (m : Int) (b : Backend),
      (∀ s, sel = some s → s.canAcceptConnection = true) →
      lcScan bs sel m = some b → b.canAcceptConnection = true := by
  intro bs
  induction bs with
  | nil =>
      intro sel m b hsel h
      exact hsel b h
  | cons hd tl ih =>
      intro sel m b hsel h
      rw [lcScan] at h
      cases hacc : hd.canAcceptConnection with
      | false =>
          rw [hacc] at h
          simp only [Bool.not_false, if_true] at h
          exact ih _ _ b hsel h
      | true =>
          rw [hacc] at h
          simp only [Bool.not_true, if_false] at h
          by_cases hmin : (m == -1 || decide (hd.currentConns < m)) = true
          · rw [if_pos hmin] at h
            exact ih _ _ b (by intro s hs; cases hs; exact hacc) h
          · rw [if_neg hmin] at h
            exact ih _ _ b hsel h

/-- The round-robin balancer only returns eligible backends. -/
theorem roundRobin_eligible (rr : RoundRobinBalancer) (ip : String) (b : Backend)
    (h : (rr.nextBackend ip).1 = some b) : b.canAcceptConnection = true := by
  rw [RoundRobinBalancer.nextBackend] at h
  by_cases h0 : rr.backends.length = 0
  · rw [if_pos h0] at h; cases h
  · rw [if_neg h0] at h
    by_cases h1 : (filterAcceptable rr.backends).length = 0
    · rw [dif_pos h1] at h; cases h
    · rw [dif_neg h1] at h
      simp only [Option.some.injEq] at h
      exact mem_filterAcceptable (by rw [← h]; exact List.get_mem _ _ _)

/-- The IP-hash balancer only returns eligible backends. -/
theorem ipHash_eligible (ih : IPHashBalancer) (ip : String) (b : Backend)
    (h : (ih.nextBackend ip).1 = some b) : b.canAcceptConnection = true := by
  rw [IPHashBalancer.nextBackend] at h
  by_cases h0 : ih.backends.length = 0
  · rw [if_pos h0] at h; cases h
  · rw [if_neg h0] at h
    by_cases h1 : (filterAcceptable ih.backends).length = 0
    · rw [dif_pos h1] at h; cases h
    · rw [dif_neg h1] at h
      simp only [Option.some.injEq] at h
      exact mem_filterAcceptable (by rw [← h]; exact List.get_mem _ _ _)

/-- The random balancer only returns eligible backends, whatever the
pseudo-random draw. -/
theorem random_eligible (rb : RandomBalancer) (ip : String) (r : Nat) (b : Backend)
    (h : (rb.nextBackend ip r).1 = some b) : b.canAcceptConnection = true := by
  rw [RandomBalancer.nextBackend] at h
  by_cases h0 : rb.backends.length = 0
  · rw [if_pos h0] at h; cases h
  · rw [if_neg h0] at h
    by_cases h1 : (filterAcceptable rb.backends).length = 0
    · rw [dif_pos h1] at h; cases h
    · rw [dif_neg h1] at h
      simp only [Option.some.injEq] at h
      exact mem_filterAcceptable (by rw [← h]; exact List.get_mem _ _ _)

/-- The least-connections balancer only returns eligible backends. -/
theorem leastConnections_eligible (lc : LeastConnectionsBalancer) (ip : String)
    (b : Backend) (h : (lc.nextBackend ip).1 = some b) :
    b.canAcceptConnection = true := by
  rw [LeastConnectionsBalancer.nextBackend] at h
  by_cases h0 : lc.backends.length = 0
  · rw [if_pos h0] at h; cases h
  · rw [if_neg h0] at h
    exact lcScan_eligible lc.backends none (-1) b (by intro s hs; cases hs) h

/-- C1: for the round-robin, least-connections, random and IP-hash
strategies, `NextBackend` never returns an ineligible backend: any
returned backend satisfies `healthy && (max == 0 || current < max)` in
the state the selection reads. -/
theorem nextBackend_only_eligible :
    ∀ (ip : String) (r : Nat),
      (∀ (rr : RoundRobinBalancer) (b : Backend),
        (rr.nextBackend ip).1 = some b → b.canAcceptConnection = true) ∧
      (∀ (lc : LeastConnectionsBalancer) (b : Backend),
        (lc.nextBackend ip).1 = some b → b.canAcceptConnection = true) ∧
      (∀ (rb : RandomBalancer) (b : Backend),
        (rb.nextBackend ip r).1 = some b → b.canAcceptConnection = true) ∧
      (∀ (ih : IPHashBalancer) (b : Backend),
        (ih.nextBackend ip).1 = some b → b.canAcceptConnection = true) := by
  intro ip r
  exact ⟨fun rr b h => roundRobin_eligible rr ip b h,
    fun lc b h => leastConnections_eligible lc ip b h,
    fun rb b h => random_eligible rb ip r b h,
    fun ih b h => ipHash_eligible ih ip b h⟩

/-- A concrete two-backend pool exercising C1: the second backend is
unhealthy, so every strategy must return the first one, which is
eligible. -/
def c1PoolA : Backend := ⟨"http://a:1", 1, 0, 0, true⟩

/-- Second backend of the C1 pool, flagged unhealthy. -/
def c1PoolB : Backend := ⟨"http://b:1", 1, 0, 0, false⟩

/-- Witness for C1: evaluating every strategy on the concrete pool and
discharging each selection hypothesis by computation. -/
theorem nextBackend_only_eligible_witness :
    (RoundRobinBalancer.nextBackend { backends := [c1PoolA, c1PoolB], current := 0 }
        "9.9.9.9").1 = some c1PoolA ∧
    (LeastConnectionsBalancer.nextBackend { backends := [c1PoolA, c1PoolB] }
        "9.9.9.9").1 = some c1PoolA ∧
    (RandomBalancer.nextBackend { backends := [c1PoolA, c1PoolB] }
        "9.9.9.9" 7).1 = some c1PoolA ∧
    (IPHashBalancer.nextBackend { backends := [c1PoolA, c1PoolB] }
        "9.9.9.9").1 = some c1PoolA ∧
    c1PoolA.canAcceptConnection = true := by
  refine ⟨by decide, by decide, by decide, by decide, ?_⟩
  exact (nextBackend_only_eligible "9.9.9.9" 7).1
    { backends := [c1PoolA, c1PoolB], current := 0 } c1PoolA (by decide)

/-! ### Weighted round-robin balancer -/

/-- `WeightedRoundRobinBalancer`: parallel lists of backends, static
weights and running current weights, kept aligned by
`AddBackend`/`RemoveBackend`. -/
structure WeightedRoundRobinBalancer where
  backends : List Backend
  weights : List Int
  current : List Int
deriving Repr, DecidableEq

/-- `NewWeightedRoundRobinBalancer`. -/
def WeightedRoundRobinBalancer.new : WeightedRoundRobinBalancer := ⟨[], [], []⟩

/-- `WeightedRoundRobinBalancer.AddBackend`: append the backend, its
weight, and a zero running weight. -/
def WeightedRoundRobinBalancer.addBackend (wrr : WeightedRoundRobinBalancer)
    (b : Backend) : WeightedRoundRobinBalancer :=
  ⟨wrr.backends ++ [b], wrr.weights ++ [b.weight], wrr.current ++ [0]⟩

/-- `WeightedRoundRobinBalancer.UpdateBackendHealth`: flips the health
flag of the first backend with the given URL. -/
def WeightedRoundRobinBalancer.updateBackendHealth (wrr : WeightedRoundRobinBalancer)
    (u : String) (h : Bool) : WeightedRoundRobinBalancer :=
  { wrr with backends := updateFirstByURL wrr.backends u h }

/-- Indices of the eligible backends, in ascending order — the
`healthyIndices` slice built by the WRR selection loop. -/
def healthyIndices (bs : List Backend) : List Nat :=
  (List.range bs.length).filter (fun i => (bs.getD i dummyBackend).canAcceptConnection)

/-- Accumulator of the WRR selection loop: the mutated `current` slice,
the running `totalWeight`, `maxCurrentWeight` (initially `-1`) and
`selectedIndex` (`none` for Go's `-1`). -/
structure WRRLoopState where
  current : List Int
  totalWeight : Int
  maxCurrentWeight : Int
  selectedIndex : Option Nat
deriving Repr, DecidableEq

/-- One iteration of the WRR selection loop over an eligible index `i`:
`current[i] += weights[i]; totalWeight += weights[i]`, then take `i` as
the provisional winner when its updated running weight strictly exceeds
the maximum seen so far. -/
def wrrLoopStep (weights : List Int) (st : WRRLoopState) (i : Nat) : WRRLoopState :=
  let cur := st.current.set i (st.current.getD i 0 + weights.getD i 0)
  let newVal := cur.getD i 0
  let tw := st.totalWeight + weights.getD i 0
  if newVal > st.maxCurrentWeight then
    ⟨cur, tw, newVal, some i⟩
  else
    ⟨cur, tw, st.maxCurrentWeight, st.selectedIndex⟩

/-- `WeightedRoundRobinBalancer.NextBackend`, factored to return the
selected *index* exactly as the Go code computes `selectedIndex` before
subscripting `wrr.backends`. -/
def WeightedRoundRobinBalancer.nextBackendIdx (wrr : WeightedRoundRobinBalancer) :
    Option Nat × WeightedRoundRobinBalancer :=
  if wrr.backends.length = 0 then (none, wrr) else
  let hi := healthyIndices wrr.backends
  if hi.length = 0 then (none, wrr) else
  let st := hi.foldl (wrrLoopStep wrr.weights) ⟨wrr.current, 0, -1, none⟩
  match st.selectedIndex with
  | some i =>
      (some i, { wrr with current := st.current.set i (st.current.getD i 0 - st.totalWeight) })
  | none => (none, wrr)

/-- `WeightedRoundRobinBalancer.NextBackend`: subscript the backend list
with the selected index (always in bounds when present). -/
def WeightedRoundRobinBalancer.nextBackend (wrr : WeightedRoundRobinBalancer)
    (_clientIP : String) : Option Backend × WeightedRoundRobinBalancer :=
  let r := wrr.nextBackendIdx
  (r.1.map (fun i => wrr.backends.getD i dummyBackend), r.2)

/-! ### Characterisation of the WRR selection loop -/

/-- Updated running weight of index `i` as read by the selection loop:
`current[i] + weights[i]`. -/
def wrrVal (w c : List Int) (i : Nat) : Int := c.getD i 0 + w.getD i 0

/-- The `current[i] += weights[i]` writes of the WRR loop, accumulated
over the processed indices. -/
def wrrBulkAdd (w : List Int) (c : List Int) (hi : List Nat) : List Int :=
  hi.foldl (fun cur i => cur.set i (cur.getD i 0 + w.getD i 0)) c

/-- The `totalWeight` accumulated by the WRR loop. -/
def wrrSumW (w : List Int) (hi : List Nat) : Int :=
  (hi.map (fun i => w.getD i 0)).sum

/-- The maximum-tracking part of the WRR loop, reading each index's
updated running weight from the *initial* `current` (legitimate because
the loop touches each index at most once). -/
def wrrScan (w c : List Int) : List Nat → Int → Option Nat → Int × Option Nat
  | [], mx, sel => (mx, sel)
  | i :: rest, mx, sel =>
      if wrrVal w c i > mx then wrrScan w c rest (wrrVal w c i) (some i)
      else wrrScan w c rest mx sel

/-- Reading an index just written: `(c.set i x).getD i 0 = x` in bounds. -/
theorem getD_set_self {c : List Int} {i : Nat} {x : Int} (h : i < c.length) :
    (c.set i x).getD i 0 = x := by
  simp [List.getD, List.getElem?_set_self', h]

/-- Reading an index other than the one written. -/
theorem getD_set_ne {c : List Int} {i j : Nat} {x : Int} (h : i ≠ j) :
    (c.set i x).getD j 0 = c.getD j 0 := by
  simp [List.getD, List.getElem?_set_ne h]

/-- The scan only depends on the `current` entries at the scanned
indices. -/
theorem wrrScan_congr (w : List Int) :
    ∀ (hi : List Nat) (c₁ c₂ : List Int) (mx : Int) (sel : Option Nat),
      (∀ i ∈ hi, c₁.getD i 0 = c₂.getD i 0) →
      wrrScan w c₁ hi mx sel = wrrScan w c₂ hi mx sel := by
  intro hi
  induction hi with
  | nil => intro _ _ _ _ _; rfl
  | cons i rest ih =>
      intro c₁ c₂ mx sel hc
      have hv : wrrVal w c₁ i = wrrVal w c₂ i := by
        unfold wrrVal; rw [hc i (List.mem_cons_self i rest)]
      rw [wrrScan, wrrScan, hv]
      by_cases hgt : wrrVal w c₂ i > mx
      · rw [if_pos hgt, if_pos hgt]
        exact ih c₁ c₂ _ _ (fun j hj => hc j (List.mem_cons_of_mem i hj))
      · rw [if_neg hgt, if_neg hgt]
        exact ih c₁ c₂ _ _ (fun j hj => hc j (List.mem_cons_of_mem i hj))

/-- The WRR loop fold equals the three independent accumulations, for a
duplicate-free in-bounds index list. -/
theorem wrrLoop_fold_spec (w : List Int) :
    ∀ (hi : List Nat) (c : List Int) (tw mx : Int) (sel : Option Nat),
      hi.Nodup → (∀ i ∈ hi, i < c.length) →
      hi.foldl (wrrLoopStep w) ⟨c, tw, mx, sel⟩ =
        ⟨wrrBulkAdd w c hi, tw + wrrSumW w hi,
          (wrrScan w c hi mx sel).1, (wrrScan w c hi mx sel).2⟩ := by
  intro hi
  induction hi with
  | nil =>
      intro c tw mx sel _ _
      simp [wrrBulkAdd, wrrSumW, wrrScan]
  | cons i rest ih =>
      intro c tw mx sel hnd hlt
      have hi_lt : i < c.length := hlt i (List.mem_cons_self i rest)
      have hrest_nd : rest.Nodup := (List.nodup_cons.mp hnd).2
      have hi_notmem : i ∉ rest := (List.nodup_cons.mp hnd).1
      have hstep : wrrLoopStep w ⟨c, tw, mx, sel⟩ i =
          if wrrVal w c i > mx then
            ⟨c.set i (wrrVal w c i), tw + w.getD i 0, wrrVal w c i, some i⟩
          else
            ⟨c.set i (wrrVal w c i), tw + w.getD i 0, mx, sel⟩ := by
        simp only [wrrLoopStep, wrrVal, getD_set_self hi_lt]
      have hcong : ∀ (a : Int) (b : Option Nat),
          wrrScan w (c.set i (wrrVal w c i)) rest a b = wrrScan w c rest a b := by
        intro a b
        exact wrrScan_congr w rest _ c a b
          (fun j hj => getD_set_ne (fun he => hi_notmem (he ▸ hj)))
      have hlen : ∀ j ∈ rest, j < (c.set i (wrrVal w c i)).length := by
        intro j hj
        rw [List.length_set]
        exact hlt j (List.mem_cons_of_mem i hj)
      rw [List.foldl_cons, hstep]
      by_cases hgt : wrrVal w c i > mx
      · rw [if_pos hgt, ih _ _ _ _ hrest_nd hlen, hcong]
        have h1 : wrrBulkAdd w c (i :: rest) =
            wrrBulkAdd w (c.set i (wrrVal w c i)) rest := by
          unfold wrrBulkAdd wrrVal
          rfl
        have h2 : tw + w.getD i 0 + wrrSumW w rest = tw + wrrSumW w (i :: rest) := by
          unfold wrrSumW
          rw [List.map_cons, List.sum_cons]
          ring
        have h3 : wrrScan w c (i :: rest) mx sel =
            wrrScan w c rest (wrrVal w c i) (some i) := by
          rw [wrrScan, if_pos hgt]
        rw [h1, h2, h3]
      · rw [if_neg hgt, ih _ _ _ _ hrest_nd hlen, hcong]
        have h1 : wrrBulkAdd w c (i :: rest) =
            wrrBulkAdd w (c.set i (wrrVal w c i)) rest := by
          unfold wrrBulkAdd wrrVal
          rfl
        have h2 : tw + w.getD i 0 + wrrSumW w rest = tw + wrrSumW w (i :: rest) := by
          unfold wrrSumW
          rw [List.map_cons, List.sum_cons]
          ring
        have h3 : wrrScan w c (i :: rest) mx sel = wrrScan w c rest mx sel := by
          rw [wrrScan, if_neg hgt]
        rw [h1, h2, h3]

/-- The running maximum of the scan never decreases. -/
theorem wrrScan_fst_ge (w c : List Int) :
    ∀ (hi : List Nat) (mx : Int) (sel : Option Nat),
      mx ≤ (wrrScan w c hi mx sel).1 := by
  intro hi
  induction hi with
  | nil => intro mx sel; exact le_refl mx
  | cons i rest ih =>
      intro mx sel
      rw [wrrScan]
      by_cases hgt : wrrVal w c i > mx
      · rw [if_pos hgt]
        exact le_of_lt (lt_of_lt_of_le hgt (ih _ _))
      · rw [if_neg hgt]
        exact ih _ _

/-- Every scanned running weight is bounded by the final running
maximum. -/
theorem wrrScan_val_le (w c : List Int) :
    ∀ (hi : List Nat) (mx : Int) (sel : Option Nat) (i : Nat), i ∈ hi →
      wrrVal w c i ≤ (wrrScan w c hi mx sel).1 := by
  intro hi
  induction hi with
  | nil => intro _ _ i hi; cases hi
  | cons j rest ih =>
      intro mx sel i hmem
      rw [wrrScan]
      rcases List.mem_cons.mp hmem with heq | hrest
      · subst heq
        by_cases hgt : wrrVal w c i > mx
        · rw [if_pos hgt]
          exact wrrScan_fst_ge w c rest _ _
        · rw [if_neg hgt]
          exact le_trans (not_lt.mp hgt) (wrrScan_fst_ge w c rest _ _)
      · by_cases hgt : wrrVal w c j > mx
        · rw [if_pos hgt]; exact ih _ _ i hrest
        · rw [if_neg hgt]; exact ih _ _ i hrest

/-- When the scan reports a winner, the final maximum is that winner's
running weight (provided the invariant held initially). -/
theorem wrrScan_some_val (w c : List Int) :
    ∀ (hi : List Nat) (mx : Int) (sel : Option Nat),
      (∀ s, sel = some s → wrrVal w c s = mx) →
      ∀ j, (wrrScan w c hi mx sel).2 = some j →
        wrrVal w c j = (wrrScan w c hi mx sel).1 := by
  intro hi
  induction hi with
  | nil =>
      intro mx sel hinv j hj
      exact hinv j hj
  | cons i rest ih =>
      intro mx sel hinv j hj
      rw [wrrScan] at hj ⊢
      by_cases hgt : wrrVal w c i > mx
      · rw [if_pos hgt] at hj ⊢
        exact ih _ _ (fun s hs => by cases hs; rfl) j hj
      · rw [if_neg hgt] at hj ⊢
        exact ih _ _ hinv j hj

/-- The winner reported by the scan comes from the scanned list, unless
it was already installed. -/
theorem wrrScan_some_mem (w c : List Int) :
    ∀ (hi : List Nat) (mx : Int) (sel : Option Nat) (j : Nat),
      (wrrScan w c hi mx sel).2 = some j → j ∈ hi ∨ sel = some j := by
  intro hi
  induction hi with
  | nil => intro mx sel j hj; exact Or.inr hj
  | cons i rest ih =>
      intro mx sel j hj
      rw [wrrScan] at hj
      by_cases hgt : wrrVal w c i > mx
      · rw [if_pos hgt] at hj
        rcases ih _ _ j hj with h | h
        · exact Or.inl (List.mem_cons_of_mem i h)
        · cases h; exact Or.inl (List.mem_cons_self i rest)
      · rw [if_neg hgt] at hj
        rcases ih _ _ j hj with h | h
        · exact Or.inl (List.mem_cons_of_mem i h)
        · exact Or.inr h

/-- Once a provisional winner is installed, the scan keeps reporting
some winner. -/
theorem wrrScan_some_isSome (w c : List Int) :
    ∀ (hi : List Nat) (mx : Int) (s : Nat),
      (wrrScan w c hi mx (some s)).2.isSome = true := by
  intro hi
  induction hi with
  | nil => intro _ _; rfl
  | cons i rest ih =>
      intro mx s
      rw [wrrScan]
      by_cases hgt : wrrVal w c i > mx
      · rw [if_pos hgt]; exact ih _ i
      · rw [if_neg hgt]; exact ih _ s

/-- Starting from the `-1`/`nil` sentinels, the scan reports no winner
exactly when every scanned running weight is at most the sentinel. -/
theorem wrrScan_none_iff (w c : List Int) :
    ∀ (hi : List Nat) (mx : Int),
      (wrrScan w c hi mx none).2 = none ↔ ∀ i ∈ hi, wrrVal w c i ≤ mx := by
  intro hi
  induction hi with
  | nil =>
      intro mx
      constructor
      · intro _ i hi; cases hi
      · intro _; rfl
  | cons i rest ih =>
      intro mx
      rw [wrrScan]
      by_cases hgt : wrrVal w c i > mx
      · rw [if_pos hgt]
        constructor
        · intro hnone
          exfalso
          have := wrrScan_some_isSome w c rest (wrrVal w c i) i
          rw [hnone] at this
          cases this
        · intro hall
          exact absurd hgt (not_lt.mpr (hall i (List.mem_cons_self i rest)))
      · rw [if_neg hgt]
        constructor
        · intro hnone j hj
          rcases List.mem_cons.mp hj with heq | hrest
          · subst heq; exact not_lt.mp hgt
          · exact (ih mx).mp hnone j hrest
        · intro hall
          exact (ih mx).mpr (fun j hj => hall j (List.mem_cons_of_mem i hj))

/-! ### Exact failure conditions of `NextBackend` (C2) -/

/-- The eligible subset is empty exactly when no backend is eligible. -/
theorem filterAcceptable_eq_nil_iff (bs : List Backend) :
    filterAcceptable bs = [] ↔ ∀ b ∈ bs, b.canAcceptConnection = false := by
  unfold filterAcceptable
  rw [List.filter_eq_nil_iff]
  constructor
  · intro h b hb
    have := h b hb
    simpa using this
  · intro h b hb
    simp [h b hb]

/-- The least-connections scan keeps any provisional selection. -/
theorem lcScan_some_isSome :
    ∀ (bs : List Backend) (s : Backend) (m : Int),
      (lcScan bs (some s) m).isSome = true := by
  intro bs
  induction bs with
  | nil => intro _ _; rfl
  | cons b rest ih =>
      intro s m
      rw [lcScan]
      cases hacc : b.canAcceptConnection with
      | false => simp only [Bool.not_false, if_true]; exact ih s m
      | true =>
          simp only [Bool.not_true, if_false]
          by_cases hmin : (m == -1 || decide (b.currentConns < m)) = true
          · rw [if_pos hmin]; exact ih b _
          · rw [if_neg hmin]; exact ih s m

/-- From the initial sentinels, the least-connections scan fails exactly
when no backend in the list is eligible. -/
theorem lcScan_none_iff :
    ∀ bs : List Backend,
      lcScan bs none (-1) = none ↔ ∀ b ∈ bs, b.canAcceptConnection = false := by
  intro bs
  induction bs with
  | nil =>
      constructor
      · intro _ b hb; cases hb
      · intro _; rfl
  | cons b rest ih =>
      rw [lcScan]
      cases hacc : b.canAcceptConnection with
      | false =>
          rw [if_pos (by decide : (!false) = true)]
          constructor
          · intro h c hc
            rcases List.mem_cons.mp hc with heq | hrest
            · subst heq; exact hacc
            · exact ih.mp h c hrest
          · intro h
            exact ih.mpr (fun c hc => h c (List.mem_cons_of_mem b hc))
      | true =>
          rw [if_neg (by decide : ¬((!true) = true))]
          have hmin : ((-1 : Int) == -1 || decide (b.currentConns < -1)) = true := by
            simp
          rw [if_pos hmin]
          constructor
          · intro h
            have := lcScan_some_isSome rest b b.currentConns
            rw [h] at this
            cases this
          · intro h
            exact absurd (h b (List.mem_cons_self b rest)) (by simp [hacc])

/-- Round robin fails exactly when no backend is eligible. -/
theorem roundRobin_none_iff (rr : RoundRobinBalancer) (ip : String) :
    (rr.nextBackend ip).1 = none ↔ ∀ b ∈ rr.backends, b.canAcceptConnection = false := by
  rw [RoundRobinBalancer.nextBackend]
  by_cases h0 : rr.backends.length = 0
  · rw [if_pos h0]
    have : rr.backends = [] := List.length_eq_zero.mp h0
    simp [this]
  · rw [if_neg h0]
    by_cases h1 : (filterAcceptable rr.backends).length = 0
    · rw [dif_pos h1]
      have : filterAcceptable rr.backends = [] := List.length_eq_zero.mp h1
      simpa using (filterAcceptable_eq_nil_iff rr.backends).mp this
    · rw [dif_neg h1]
      simp only [Option.some_ne_none, false_iff]
      intro hall
      exact h1 (by rw [(filterAcceptable_eq_nil_iff rr.backends).mpr hall]; rfl)

/-- Least connections fails exactly when no backend is eligible. -/
theorem leastConnections_none_iff (lc : LeastConnectionsBalancer) (ip : String) :
    (lc.nextBackend ip).1 = none ↔ ∀ b ∈ lc.backends, b.canAcceptConnection = false := by
  rw [LeastConnectionsBalancer.nextBackend]
  by_cases h0 : lc.backends.length = 0
  · rw [if_pos h0]
    have : lc.backends = [] := List.length_eq_zero.mp h0
    simp [this]
  · rw [if_neg h0]
    exact lcScan_none_iff lc.backends

/-- IP hash fails exactly when no backend is eligible. -/
theorem ipHash_none_iff (ih : IPHashBalancer) (ip : String) :
    (ih.nextBackend ip).1 = none ↔ ∀ b ∈ ih.backends, b.canAcceptConnection = false := by
  rw [IPHashBalancer.nextBackend]
  by_cases h0 : ih.backends.length = 0
  · rw [if_pos h0]
    have : ih.backends = [] := List.length_eq_zero.mp h0
    simp [this]
  · rw [if_neg h0]
    by_cases h1 : (filterAcceptable ih.backends).length = 0
    · rw [dif_pos h1]
      have : filterAcceptable ih.backends = [] := List.length_eq_zero.mp h1
      simpa using (filterAcceptable_eq_nil_iff ih.backends).mp this
    · rw [dif_neg h1]
      simp only [Option.some_ne_none, false_iff]
      intro hall
      exact h1 (by rw [(filterAcceptable_eq_nil_iff ih.backends).mpr hall]; rfl)

/-- Random fails exactly when no backend is eligible, whatever the
draw. -/
theorem random_none_iff (rb : RandomBalancer) (ip : String) (r : Nat) :
    (rb.nextBackend ip r).1 = none ↔ ∀ b ∈ rb.backends, b.canAcceptConnection = false := by
  rw [RandomBalancer.nextBackend]
  by_cases h0 : rb.backends.length = 0
  · rw [if_pos h0]
    have : rb.backends = [] := List.length_eq_zero.mp h0
    simp [this]
  · rw [if_neg h0]
    by_cases h1 : (filterAcceptable rb.backends).length = 0
    · rw [dif_pos h1]
      have : filterAcceptable rb.backends = [] := List.length_eq_zero.mp h1
      simpa using (filterAcceptable_eq_nil_iff rb.backends).mp this
    · rw [dif_neg h1]
      simp only [Option.some_ne_none, false_iff]
      intro hall
      exact h1 (by rw [(filterAcceptable_eq_nil_iff rb.backends).mpr hall]; rfl)

/-- Duplicate-freeness of the eligible index list. -/
theorem healthyIndices_nodup (bs : List Backend) : (healthyIndices bs).Nodup :=
  (List.nodup_range bs.length).filter _

/-- Eligible indices are in bounds. -/
theorem healthyIndices_lt (bs : List Backend) :
    ∀ i ∈ healthyIndices bs, i < bs.length := by
  intro i hi
  exact List.mem_range.mp (List.mem_filter.mp hi).1

/-- Weighted round robin fails exactly when the pool is empty or every
eligible backend's updated running weight is at most the `-1` sentinel
(the latter subsumes the no-eligible-backend case vacuously). -/
theorem weightedRoundRobin_none_iff (wrr : WeightedRoundRobinBalancer) (ip : String)
    (hc : wrr.current.length = wrr.backends.length) :
    (wrr.nextBackend ip).1 = none ↔
      (wrr.backends = [] ∨
        ∀ i ∈ healthyIndices wrr.backends, wrrVal wrr.weights wrr.current i ≤ -1) := by
  rw [WeightedRoundRobinBalancer.nextBackend]
  simp only [Option.map_eq_none']
  rw [WeightedRoundRobinBalancer.nextBackendIdx]
  by_cases h0 : wrr.backends.length = 0
  · rw [if_pos h0]
    have : wrr.backends = [] := List.length_eq_zero.mp h0
    simp [this]
  · rw [if_neg h0]
    have hne : ¬wrr.backends = [] := fun he => h0 (by rw [he]; rfl)
    by_cases h1 : (healthyIndices wrr.backends).length = 0
    · rw [if_pos h1]
      have hnil : healthyIndices wrr.backends = [] := List.length_eq_zero.mp h1
      simp [hnil, hne]
    · rw [if_neg h1]
      rw [wrrLoop_fold_spec wrr.weights (healthyIndices wrr.backends) wrr.current 0 (-1)
        none (healthyIndices_nodup wrr.backends)
        (fun i hi => hc ▸ healthyIndices_lt wrr.backends i hi)]
      rcases hsel : (wrrScan wrr.weights wrr.current (healthyIndices wrr.backends) (-1) none).2
        with _ | j
      · simp only [hsel]
        simp only [true_iff]
        exact Or.inr ((wrrScan_none_iff wrr.weights wrr.current _ _).mp hsel)
      · simp only [hsel]
        simp only [Option.some_ne_none, false_iff]
        intro hor
        rcases hor with he | hall
        · exact hne he
        · have : (wrrScan wrr.weights wrr.current (healthyIndices wrr.backends) (-1) none).2
              = none := (wrrScan_none_iff wrr.weights wrr.current _ _).mpr hall
          rw [hsel] at this
          cases this

/-- First backend of the C2 scenario pool (weight 1, healthy). -/
def c2BackendA : Backend := ⟨"http://a", 1, 0, 0, true⟩

/-- Second backend of the C2 scenario pool. -/
def c2BackendB : Backend := ⟨"http://b", 1, 0, 0, true⟩

/-- Third backend of the C2 scenario pool. -/
def c2BackendC : Backend := ⟨"http://c", 1, 0, 0, true⟩

/-- Fresh three-backend weighted balancer of the C2 scenario. -/
def c2Fresh : WeightedRoundRobinBalancer :=
  ((WeightedRoundRobinBalancer.new.addBackend c2BackendA).addBackend
    c2BackendB).addBackend c2BackendC

/-- The C2 scenario state: one selection (choosing backend `a` and
leaving running weights `[-2, 1, 1]`), then backends `b` and `c` are
marked unhealthy via `UpdateBackendHealth`. -/
def c2Broken : WeightedRoundRobinBalancer :=
  (((c2Fresh.nextBackend "1.1.1.1").2.updateBackendHealth "http://b"
    false).updateBackendHealth "http://c" false)

/-- Counterexample to C2: in the reachable state `c2Broken` the first
backend is still healthy and under its cap, yet the weighted
round-robin `NextBackend` returns the no-backends-available error, so
an eligible backend does not guarantee a successful selection. -/
theorem weightedRoundRobin_starves_eligible :
    (∃ b ∈ c2Broken.backends, b.canAcceptConnection = true) ∧
      (c2Broken.nextBackend "1.1.1.1").1 = none := by
  decide

/-- C2 (amended): for round robin, least connections, random and
IP-hash, `NextBackend` fails with `NoBackendsAvailable` exactly when no
backend is eligible (in particular when the pool is empty); for
weighted round robin the failure condition is: the pool is empty, or
every eligible backend's running weight plus static weight is at most
`-1` — a condition implied by, but (after health flips) not equivalent
to, the absence of an eligible backend. -/
theorem nextBackend_none_conditions :
    ∀ (ip : String) (r : Nat),
      (∀ rr : RoundRobinBalancer,
        ((rr.nextBackend ip).1 = none ↔ ∀ b ∈ rr.backends, b.canAcceptConnection = false)) ∧
      (∀ lc : LeastConnectionsBalancer,
        ((lc.nextBackend ip).1 = none ↔ ∀ b ∈ lc.backends, b.canAcceptConnection = false)) ∧
      (∀ rb : RandomBalancer,
        ((rb.nextBackend ip r).1 = none ↔ ∀ b ∈ rb.backends, b.canAcceptConnection = false)) ∧
      (∀ ih : IPHashBalancer,
        ((ih.nextBackend ip).1 = none ↔ ∀ b ∈ ih.backends, b.canAcceptConnection = false)) ∧
      (∀ wrr : WeightedRoundRobinBalancer,
        wrr.current.length = wrr.backends.length →
        ((wrr.nextBackend ip).1 = none ↔
          (wrr.backends = [] ∨
            ∀ i ∈ healthyIndices wrr.backends,
              wrrVal wrr.weights wrr.current i ≤ -1))) := by
  intro ip r
  exact ⟨fun rr => roundRobin_none_iff rr ip,
    fun lc => leastConnections_none_iff lc ip,
    fun rb => random_none_iff rb ip r,
    fun ih => ipHash_none_iff ih ip,
    fun wrr hc => weightedRoundRobin_none_iff wrr ip hc⟩

/-- Witness for the amended C2, instantiating each direction at concrete
states: an all-unhealthy round-robin pool must fail, and the broken
weighted state fails because every eligible running weight is at most
`-1`. -/
theorem nextBackend_none_conditions_witness :
    (RoundRobinBalancer.nextBackend { backends := [c1PoolB], current := 5 } "8.8.8.8").1
        = none ∧
      (c2Broken.nextBackend "8.8.8.8").1 = none := by
  constructor
  · exact ((nextBackend_none_conditions "8.8.8.8" 3).1
      { backends := [c1PoolB], current := 5 }).mpr (by decide)
  · exact ((nextBackend_none_conditions "8.8.8.8" 3).2.2.2.2 c2Broken (by decide)).mpr
      (by decide)

/-! ### Weighted round-robin fairness (C3) -/

/-- Bulk addition preserves the length of `current`. -/
theorem wrrBulkAdd_length (w : List Int) :
    ∀ (hi : List Nat) (c : List Int), (wrrBulkAdd w c hi).length = c.length := by
  intro hi
  induction hi with
  | nil => intro c; rfl
  | cons i rest ih =>
      intro c
      show (wrrBulkAdd w (c.set i (c.getD i 0 + w.getD i 0)) rest).length = c.length
      rw [ih, List.length_set]

/-- Entry `l` after the bulk addition over a duplicate-free in-bounds
index list: incremented by `weights[l]` iff `l` was processed. -/
theorem wrrBulkAdd_getD (w : List Int) :
    ∀ (hi : List Nat) (c : List Int), hi.Nodup → (∀ i ∈ hi, i < c.length) →
      ∀ l : Nat, (wrrBulkAdd w c hi).getD l 0 =
        c.getD l 0 + (if l ∈ hi then w.getD l 0 else 0) := by
  intro hi
  induction hi with
  | nil =>
      intro c _ _ l
      simp [wrrBulkAdd]
  | cons i rest ih =>
      intro c hnd hlt l
      have hrest : (wrrBulkAdd w c (i :: rest)) =
          wrrBulkAdd w (c.set i (c.getD i 0 + w.getD i 0)) rest := rfl
      rw [hrest, ih _ (List.nodup_cons.mp hnd).2
        (fun j hj => by rw [List.length_set]; exact hlt j (List.mem_cons_of_mem i hj)) l]
      by_cases hli : l = i
      · subst hli
        rw [getD_set_self (hlt l (List.mem_cons_self l rest))]
        have hnot : l ∉ rest := (List.nodup_cons.mp hnd).1
        simp [hnot, List.mem_cons]
      · rw [getD_set_ne (fun he => hli he.symm)]
        by_cases hlr : l ∈ rest
        · simp [hlr, List.mem_cons, hli]
        · simp [hlr, List.mem_cons, hli]

/-- When every backend is eligible the index filter keeps everything. -/
theorem healthyIndices_all (bs : List Backend)
    (h : ∀ b ∈ bs, b.canAcceptConnection = true) :
    healthyIndices bs = List.range bs.length := by
  unfold healthyIndices
  apply List.filter_eq_self.mpr
  intro i hi
  have hilt : i < bs.length := List.mem_range.mp hi
  have : bs.getD i dummyBackend = bs[i] := List.getD_eq_getElem bs dummyBackend hilt
  rw [this]
  exact h _ (List.getElem_mem hilt)

/-- Full specification of one successful `NextBackend` call in an
all-eligible state: the winner `j` maximises the updated running
weights, and `current` becomes "add every weight, subtract the weight
sum from the winner". -/
theorem nextBackendIdx_spec (s : WeightedRoundRobinBalancer) (n : Nat)
    (hn : s.backends.length = n) (h1 : 1 ≤ n)
    (hel : ∀ b ∈ s.backends, b.canAcceptConnection = true)
    (hclen : s.current.length = n)
    (hex : ∃ l, l < n ∧ wrrVal s.weights s.current l > -1) :
    ∃ j, j < n ∧
      (s.nextBackendIdx.1 = some j ∧
        (∀ l, l < n → wrrVal s.weights s.current l ≤ wrrVal s.weights s.current j) ∧
        (s.nextBackendIdx.2.backends = s.backends ∧
          s.nextBackendIdx.2.weights = s.weights ∧
          s.nextBackendIdx.2.current.length = n ∧
          ∀ l, l < n → s.nextBackendIdx.2.current.getD l 0 =
            wrrVal s.weights s.current l -
              (if l = j then wrrSumW s.weights (List.range n) else 0))) := by
  have hne : ¬s.backends.length = 0 := by omega
  have hhi : healthyIndices s.backends = List.range n := by
    rw [healthyIndices_all s.backends hel, hn]
  have hhine : ¬(healthyIndices s.backends).length = 0 := by
    rw [hhi, List.length_range]; omega
  have hnd : (List.range n).Nodup := List.nodup_range n
  have hlt : ∀ i ∈ List.range n, i < s.current.length := by
    intro i hi; rw [hclen]; exact List.mem_range.mp hi
  have hfold := wrrLoop_fold_spec s.weights (List.range n) s.current 0 (-1) none hnd hlt
  -- the scan succeeds
  obtain ⟨l0, hl0n, hl0v⟩ := hex
  have hscan_ne : (wrrScan s.weights s.current (List.range n) (-1) none).2 ≠ none := by
    intro hnone
    have := (wrrScan_none_iff s.weights s.current (List.range n) (-1)).mp hnone l0
      (List.mem_range.mpr hl0n)
    omega
  rcases hsel : (wrrScan s.weights s.current (List.range n) (-1) none).2 with _ | j
  · exact absurd hsel hscan_ne
  have hjmem : j ∈ List.range n := by
    rcases wrrScan_some_mem s.weights s.current (List.range n) (-1) none j hsel with h | h
    · exact h
    · cases h
  have hjn : j < n := List.mem_range.mp hjmem
  have hjval : wrrVal s.weights s.current j =
      (wrrScan s.weights s.current (List.range n) (-1) none).1 :=
    wrrScan_some_val s.weights s.current (List.range n) (-1) none
      (fun s hs => by cases hs) j hsel
  have hmax : ∀ l, l < n →
      wrrVal s.weights s.current l ≤ wrrVal s.weights s.current j := by
    intro l hln
    rw [hjval]
    exact wrrScan_val_le s.weights s.current (List.range n) (-1) none l
      (List.mem_range.mpr hln)
  -- unfold the call
  have hcall : s.nextBackendIdx =
      (some j,
        ⟨s.backends, s.weights,
          (wrrBulkAdd s.weights s.current (List.range n)).set j
            ((wrrBulkAdd s.weights s.current (List.range n)).getD j 0 -
              wrrSumW s.weights (List.range n))⟩) := by
    rw [WeightedRoundRobinBalancer.nextBackendIdx]
    rw [if_neg hne]
    simp only [hhi]
    rw [if_neg (by rw [List.length_range]; omega)]
    rw [hfold]
    simp only [hsel]
    rw [zero_add]
  refine ⟨j, hjn, by rw [hcall], hmax, by rw [hcall], by rw [hcall], ?_, ?_⟩
  · rw [hcall]
    show ((wrrBulkAdd s.weights s.current (List.range n)).set j _).length = n
    rw [List.length_set, wrrBulkAdd_length, hclen]
  · intro l hln
    rw [hcall]
    show ((wrrBulkAdd s.weights s.current (List.range n)).set j
        ((wrrBulkAdd s.weights s.current (List.range n)).getD j 0 -
          wrrSumW s.weights (List.range n))).getD l 0 = _
    have hbad : ∀ m, m < n → (wrrBulkAdd s.weights s.current (List.range n)).getD m 0 =
        wrrVal s.weights s.current m := by
      intro m hmn
      rw [wrrBulkAdd_getD s.weights (List.range n) s.current hnd hlt m]
      rw [if_pos (List.mem_range.mpr hmn)]
      rfl
    by_cases hlj : l = j
    · subst hlj
      have hjlt : l < (wrrBulkAdd s.weights s.current (List.range n)).length := by
        rw [wrrBulkAdd_length, hclen]; exact hln
      rw [getD_set_self hjlt, hbad l hln, if_pos rfl]
    · rw [getD_set_ne (fun he => hlj he.symm), hbad l hln, if_neg hlj]
      ring

/-- State of a weighted balancer after `t` consecutive `NextBackend`
calls. -/
def wrrState (s0 : WeightedRoundRobinBalancer) : Nat → WeightedRoundRobinBalancer
  | 0 => s0
  | t + 1 => (wrrState s0 t).nextBackendIdx.2

/-- Index selected by the `(t+1)`-st consecutive `NextBackend` call
(`none` on failure). -/
def wrrSel (s0 : WeightedRoundRobinBalancer) (t : Nat) : Option Nat :=
  (wrrState s0 t).nextBackendIdx.1

/-- How many of the `L` consecutive selections starting after call `t`
choose backend index `i`. -/
def wrrSelCount (s0 : WeightedRoundRobinBalancer) (t L i : Nat) : Nat :=
  ((Finset.range L).filter (fun j => wrrSel s0 (t + j) = some i)).card

/-- Prefix counts increase by the indicator of the last selection. -/
theorem wrrSelCount_zero_succ (s0 : WeightedRoundRobinBalancer) (t i : Nat) :
    wrrSelCount s0 0 (t + 1) i =
      wrrSelCount s0 0 t i + (if wrrSel s0 t = some i then 1 else 0) := by
  unfold wrrSelCount
  simp only [zero_add]
  rw [Finset.range_succ, Finset.filter_insert]
  by_cases h : wrrSel s0 t = some i
  · rw [if_pos h, if_pos h]
    rw [Finset.card_insert_of_not_mem (fun hmem => by
      have := (Finset.mem_filter.mp hmem).1
      exact absurd (Finset.mem_range.mp this) (lt_irrefl t))]
  · rw [if_neg h, if_neg h, Nat.add_zero]

/-- When every one of the first `t` calls succeeded with an in-range
index, the prefix counts over all indices sum to `t`. -/
theorem wrrSelCount_sum (s0 : WeightedRoundRobinBalancer) (n t : Nat)
    (h : ∀ u, u < t → ∃ j, j < n ∧ wrrSel s0 u = some j) :
    Finset.sum (Finset.range n) (fun i => wrrSelCount s0 0 t i) = t := by
  unfold wrrSelCount
  simp only [zero_add]
  have hcards : ∀ i : Nat,
      ((Finset.range t).filter (fun u => wrrSel s0 u = some i)).card =
        Finset.sum (Finset.range t) (fun u => if wrrSel s0 u = some i then 1 else 0) :=
    fun i => Finset.card_filter _ _
  calc Finset.sum (Finset.range n)
        (fun i => ((Finset.range t).filter (fun u => wrrSel s0 u = some i)).card)
      = Finset.sum (Finset.range n) (fun i => Finset.sum (Finset.range t)
          (fun u => if wrrSel s0 u = some i then 1 else 0)) := by
        exact Finset.sum_congr rfl (fun i _ => hcards i)
    _ = Finset.sum (Finset.range t) (fun u => Finset.sum (Finset.range n)
          (fun i => if wrrSel s0 u = some i then 1 else 0)) := Finset.sum_comm
    _ = Finset.sum (Finset.range t) (fun _ => 1) := by
        apply Finset.sum_congr rfl
        intro u hu
        obtain ⟨j, hjn, hju⟩ := h u (Finset.mem_range.mp hu)
        have : ∀ i : Nat, (wrrSel s0 u = some i) = (j = i) := by
          intro i
          rw [hju]
          simp only [Option.some.injEq]
        simp only [this]
        rw [Finset.sum_ite_eq (Finset.range n) j (fun _ => 1)]
        rw [if_pos (Finset.mem_range.mpr hjn)]
    _ = t := by simp

/-- The weight sum over all indices, as a `Finset` sum. -/
theorem wrrSumW_range_eq (w : List Int) :
    ∀ n : Nat, wrrSumW w (List.range n) =
      Finset.sum (Finset.range n) (fun i => w.getD i 0) := by
  intro n
  induction n with
  | zero => rfl
  | succ m ih =>
      unfold wrrSumW at ih ⊢
      rw [List.range_succ, List.map_append, List.sum_append, Finset.sum_range_succ, ih]
      simp

/-- With every weight at least `1`, the weight sum dominates the number
of backends. -/
theorem wrrSumW_ge (w : List Int) (n : Nat) (hwlen : w.length = n)
    (hpos : ∀ x ∈ w, 1 ≤ x) : (n : Int) ≤ wrrSumW w (List.range n) := by
  rw [wrrSumW_range_eq]
  have : ∀ i ∈ Finset.range n, (1 : Int) ≤ w.getD i 0 := by
    intro i hi
    have hilt : i < w.length := by rw [hwlen]; exact Finset.mem_range.mp hi
    rw [List.getD_eq_getElem w 0 hilt]
    exact hpos _ (List.getElem_mem hilt)
  calc (n : Int) = Finset.sum (Finset.range n) (fun _ => (1 : Int)) := by simp
    _ ≤ _ := Finset.sum_le_sum this

/-- Master invariant of a run from a fresh, all-eligible weighted
balancer: the pool and weights never change, every call succeeds, and
after `t` calls each running weight equals `t·wᵢ - countᵢ·Σw`. -/
theorem wrr_run_invariant (s0 : WeightedRoundRobinBalancer) (n : Nat)
    (hn : s0.backends.length = n) (hwlen : s0.weights.length = n)
    (hcur : s0.current = List.replicate n 0)
    (hel : ∀ b ∈ s0.backends, b.canAcceptConnection = true)
    (hpos : ∀ x ∈ s0.weights, 1 ≤ x) (h1 : 1 ≤ n) :
    ∀ t : Nat,
      (wrrState s0 t).backends = s0.backends ∧
      (wrrState s0 t).weights = s0.weights ∧
      (wrrState s0 t).current.length = n ∧
      (∀ u, u < t → ∃ j, j < n ∧ wrrSel s0 u = some j ∧
        ∀ l, l < n → wrrVal (wrrState s0 u).weights (wrrState s0 u).current l ≤
          wrrVal (wrrState s0 u).weights (wrrState s0 u).current j) ∧
      (∀ l, l < n → (wrrState s0 t).current.getD l 0 =
        (t : Int) * s0.weights.getD l 0 -
          (wrrSelCount s0 0 t l : Int) * wrrSumW s0.weights (List.range n)) := by
  intro t
  induction t with
  | zero =>
      refine ⟨rfl, rfl, by rw [wrrState, hcur]; simp,
        fun u hu => absurd hu (Nat.not_lt_zero u), ?_⟩
      intro l hl
      rw [wrrState, hcur]
      have hz : (List.replicate n (0 : Int)).getD l 0 = 0 := by
        rw [List.getD_eq_getElem _ 0 (by simpa using hl)]; simp
      rw [hz]
      have hc0 : wrrSelCount s0 0 0 l = 0 := by
        unfold wrrSelCount; simp
      rw [hc0]
      simp
  | succ t ih =>
      obtain ⟨hb, hw, hclen, hsucc, hform⟩ := ih
      have hS := wrrSumW_ge s0.weights n hwlen hpos
      have hsum0 : Finset.sum (Finset.range n)
          (fun l => (wrrState s0 t).current.getD l 0) = 0 := by
        rw [Finset.sum_congr rfl (fun l hl => hform l (Finset.mem_range.mp hl))]
        rw [Finset.sum_sub_distrib]
        rw [← Finset.sum_mul]
        rw [← Finset.mul_sum]
        rw [← wrrSumW_range_eq]
        have hcast : Finset.sum (Finset.range n) (fun l => (wrrSelCount s0 0 t l : Int)) =
            ((Finset.sum (Finset.range n) (fun l => wrrSelCount s0 0 t l) : Nat) : Int) := by
          rw [Nat.cast_sum]
        rw [hcast, wrrSelCount_sum s0 n t
          (fun u hu => (hsucc u hu).imp (fun j hj => ⟨hj.1, hj.2.1⟩))]
        ring
      have hex : ∃ l, l < n ∧
          wrrVal (wrrState s0 t).weights (wrrState s0 t).current l > -1 := by
        by_contra hnone
        push_neg at hnone
        have hle : ∀ l ∈ Finset.range n,
            wrrVal (wrrState s0 t).weights (wrrState s0 t).current l ≤ -1 :=
          fun l hl => hnone l (Finset.mem_range.mp hl)
        have hsumv : Finset.sum (Finset.range n)
            (fun l => wrrVal (wrrState s0 t).weights (wrrState s0 t).current l) =
            wrrSumW s0.weights (List.range n) := by
          unfold wrrVal
          rw [Finset.sum_add_distrib, hsum0, hw, ← wrrSumW_range_eq]
          ring
        have hbound : Finset.sum (Finset.range n)
            (fun l => wrrVal (wrrState s0 t).weights (wrrState s0 t).current l) ≤
            Finset.sum (Finset.range n) (fun _ => (-1 : Int)) :=
          Finset.sum_le_sum hle
        rw [hsumv] at hbound
        simp only [Finset.sum_const, Finset.card_range, nsmul_eq_mul, mul_neg_one] at hbound
        omega
      obtain ⟨j, hjn, hselj, hmax, hb', hw', hclen', hform'⟩ :=
        nextBackendIdx_spec (wrrState s0 t) n (by rw [hb, hn]) h1
          (by rw [hb]; exact hel) hclen hex
      refine ⟨?_, ?_, ?_, ?_, ?_⟩
      · rw [wrrState, hb', hb]
      · rw [wrrState, hw', hw]
      · rw [wrrState]; exact hclen'
      · intro u hu
        rcases Nat.lt_succ_iff_lt_or_eq.mp hu with hlt | heq
        · exact hsucc u hlt
        · subst heq
          exact ⟨j, hjn, hselj, hmax⟩
      · intro l hl
        rw [wrrState]
        rw [hform' l hl]
        have hval : wrrVal (wrrState s0 t).weights (wrrState s0 t).current l =
            (t : Int) * s0.weights.getD l 0 -
              (wrrSelCount s0 0 t l : Int) * wrrSumW s0.weights (List.range n) +
              s0.weights.getD l 0 := by
          unfold wrrVal
          rw [hform l hl, hw]
        have hcount := wrrSelCount_zero_succ s0 t l
        have hselt : wrrSel s0 t = some j := hselj
        rw [hval, hw]
        by_cases hlj : l = j
        · subst hlj
          rw [if_pos rfl]
          have : wrrSelCount s0 0 (t + 1) l = wrrSelCount s0 0 t l + 1 := by
            rw [hcount, hselt, if_pos rfl]
          rw [this]
          push_cast
          ring
        · rw [if_neg hlj]
          have : wrrSelCount s0 0 (t + 1) l = wrrSelCount s0 0 t l := by
            rw [hcount, hselt]
            rw [if_neg (by simpa using fun he => hlj he.symm), Nat.add_zero]
          rw [this]
          push_cast
          ring

/-- Every configured weight (read through `getD`) is at least one. -/
theorem weight_getD_ge_one (w : List Int) (n : Nat) (hwlen : w.length = n)
    (hpos : ∀ x ∈ w, 1 ≤ x) : ∀ i, i < n → 1 ≤ w.getD i 0 := by
  intro i hi
  have hilt : i < w.length := by rw [hwlen]; exact hi
  rw [List.getD_eq_getElem w 0 hilt]
  exact hpos _ (List.getElem_mem hilt)

/-- Within the first `Σw` calls no backend is selected more often than
its weight: a backend already at its weight would have a non-positive
updated running weight, yet the winner's running weight dominates a
collection summing to `Σw ≥ 1`. -/
theorem wrr_count_le (s0 : WeightedRoundRobinBalancer) (n : Nat)
    (hn : s0.backends.length = n) (hwlen : s0.weights.length = n)
    (hcur : s0.current = List.replicate n 0)
    (hel : ∀ b ∈ s0.backends, b.canAcceptConnection = true)
    (hpos : ∀ x ∈ s0.weights, 1 ≤ x) (h1 : 1 ≤ n) :
    ∀ t : Nat, (t : Int) ≤ wrrSumW s0.weights (List.range n) →
      ∀ i, i < n → (wrrSelCount s0 0 t i : Int) ≤ s0.weights.getD i 0 := by
  intro t
  induction t with
  | zero =>
      intro _ i hi
      have : wrrSelCount s0 0 0 i = 0 := by unfold wrrSelCount; simp
      rw [this]
      have := weight_getD_ge_one s0.weights n hwlen hpos i hi
      omega
  | succ t ih =>
      intro ht1 i hi
      have hSle : (t : Int) ≤ wrrSumW s0.weights (List.range n) := by
        push_cast at ht1 ⊢; omega
      obtain ⟨hb, hw, hclen, hsucc, hform⟩ :=
        wrr_run_invariant s0 n hn hwlen hcur hel hpos h1 (t + 1)
      obtain ⟨j, hjn, hselj, hmax⟩ := hsucc t (Nat.lt_succ_self t)
      rw [wrrSelCount_zero_succ s0 t i, hselj]
      by_cases hij : i = j
      · subst hij
        rw [if_pos rfl]
        -- show the count was still strictly below the weight
        by_contra hcon
        push_neg at hcon
        have hle := ih hSle i hi
        have heq : (wrrSelCount s0 0 t i : Int) = s0.weights.getD i 0 := by
          push_cast at hcon
          omega
        -- at state t the winner's updated running weight is non-positive
        obtain ⟨hbt, hwt, hclent, _, hformt⟩ :=
          wrr_run_invariant s0 n hn hwlen hcur hel hpos h1 t
        have hvj : wrrVal (wrrState s0 t).weights (wrrState s0 t).current i =
            s0.weights.getD i 0 * ((t : Int) + 1 - wrrSumW s0.weights (List.range n)) := by
          unfold wrrVal
          rw [hformt i hi, hwt, heq]
          ring
        have hvj_nonpos : wrrVal (wrrState s0 t).weights (wrrState s0 t).current i ≤ 0 := by
          rw [hvj]
          apply mul_nonpos_of_nonneg_of_nonpos
          · have := weight_getD_ge_one s0.weights n hwlen hpos i hi
            omega
          · push_cast at ht1
            omega
        -- but the values over all indices sum to Σw ≥ n ≥ 1
        have hsum0 : Finset.sum (Finset.range n)
            (fun l => (wrrState s0 t).current.getD l 0) = 0 := by
          rw [Finset.sum_congr rfl (fun l hl => hformt l (Finset.mem_range.mp hl))]
          rw [Finset.sum_sub_distrib, ← Finset.sum_mul, ← Finset.mul_sum,
            ← wrrSumW_range_eq]
          have hcast : Finset.sum (Finset.range n) (fun l => (wrrSelCount s0 0 t l : Int)) =
              ((Finset.sum (Finset.range n) (fun l => wrrSelCount s0 0 t l) : Nat) : Int) := by
            rw [Nat.cast_sum]
          rw [hcast, wrrSelCount_sum s0 n t
            (fun u hu => ((wrr_run_invariant s0 n hn hwlen hcur hel hpos h1 t).2.2.2.1 u
              hu).imp (fun j hj => ⟨hj.1, hj.2.1⟩))]
          ring
        have hsumv : Finset.sum (Finset.range n)
            (fun l => wrrVal (wrrState s0 t).weights (wrrState s0 t).current l) =
            wrrSumW s0.weights (List.range n) := by
          unfold wrrVal
          rw [Finset.sum_add_distrib, hsum0, hwt, ← wrrSumW_range_eq]
          ring
        have hallle : ∀ l ∈ Finset.range n,
            wrrVal (wrrState s0 t).weights (wrrState s0 t).current l ≤ 0 :=
          fun l hl => le_trans (hmax l (Finset.mem_range.mp hl)) hvj_nonpos
        have hbound := Finset.sum_le_sum hallle
        rw [hsumv] at hbound
        simp only [Finset.sum_const, Finset.card_range, smul_zero] at hbound
        have hS := wrrSumW_ge s0.weights n hwlen hpos
        omega
      · rw [if_neg (by simpa using fun he => hij he.symm), Nat.add_zero]
        exact ih hSle i hi

/-- After exactly `Σw` calls from a fresh all-eligible balancer, each
backend has been selected exactly its weight many times. -/
theorem wrr_count_eq (s0 : WeightedRoundRobinBalancer) (n : Nat)
    (hn : s0.backends.length = n) (hwlen : s0.weights.length = n)
    (hcur : s0.current = List.replicate n 0)
    (hel : ∀ b ∈ s0.backends, b.canAcceptConnection = true)
    (hpos : ∀ x ∈ s0.weights, 1 ≤ x) (h1 : 1 ≤ n) :
    ∀ i, i < n →
      (wrrSelCount s0 0 (wrrSumW s0.weights (List.range n)).toNat i : Int) =
        s0.weights.getD i 0 := by
  have hS := wrrSumW_ge s0.weights n hwlen hpos
  have hScast : (((wrrSumW s0.weights (List.range n)).toNat : Nat) : Int) =
      wrrSumW s0.weights (List.range n) := by
    have : (0 : Int) ≤ wrrSumW s0.weights (List.range n) := by push_cast at hS; omega
    omega
  have hle : ∀ i ∈ Finset.range n,
      (wrrSelCount s0 0 (wrrSumW s0.weights (List.range n)).toNat i : Int) ≤
        s0.weights.getD i 0 := by
    intro i hi
    exact wrr_count_le s0 n hn hwlen hcur hel hpos h1 _ (le_of_eq hScast)
      i (Finset.mem_range.mp hi)
  have hsumc : Finset.sum (Finset.range n)
      (fun i => (wrrSelCount s0 0 (wrrSumW s0.weights (List.range n)).toNat i : Int)) =
      wrrSumW s0.weights (List.range n) := by
    rw [← Nat.cast_sum]
    rw [wrrSelCount_sum s0 n _
      (fun u hu => ((wrr_run_invariant s0 n hn hwlen hcur hel hpos h1 _).2.2.2.1 u
        hu).imp (fun j hj => ⟨hj.1, hj.2.1⟩))]
    exact hScast
  have hsumw : Finset.sum (Finset.range n) (fun i => s0.weights.getD i 0) =
      wrrSumW s0.weights (List.range n) := (wrrSumW_range_eq s0.weights n).symm
  have := (Finset.sum_eq_sum_iff_of_le hle).mp (by rw [hsumc, hsumw])
  intro i hi
  exact this i (Finset.mem_range.mpr hi)

/-- After exactly `Σw` calls the balancer has returned to its initial
state: the running weights are all zero again. -/
theorem wrr_state_return (s0 : WeightedRoundRobinBalancer) (n : Nat)
    (hn : s0.backends.length = n) (hwlen : s0.weights.length = n)
    (hcur : s0.current = List.replicate n 0)
    (hel : ∀ b ∈ s0.backends, b.canAcceptConnection = true)
    (hpos : ∀ x ∈ s0.weights, 1 ≤ x) (h1 : 1 ≤ n) :
    wrrState s0 (wrrSumW s0.weights (List.range n)).toNat = s0 := by
  have hS := wrrSumW_ge s0.weights n hwlen hpos
  have hScast : (((wrrSumW s0.weights (List.range n)).toNat : Nat) : Int) =
      wrrSumW s0.weights (List.range n) := by
    have : (0 : Int) ≤ wrrSumW s0.weights (List.range n) := by push_cast at hS; omega
    omega
  obtain ⟨hb, hw, hclen, _, hform⟩ :=
    wrr_run_invariant s0 n hn hwlen hcur hel hpos h1
      (wrrSumW s0.weights (List.range n)).toNat
  have hcount := wrr_count_eq s0 n hn hwlen hcur hel hpos h1
  have hcz : (wrrState s0 (wrrSumW s0.weights (List.range n)).toNat).current =
      s0.current := by
    rw [hcur]
    apply List.ext_getElem
    · rw [hclen, List.length_replicate]
    · intro i hi1 hi2
      have hin : i < n := by rw [hclen] at hi1; exact hi1
      have hgd : (wrrState s0 (wrrSumW s0.weights (List.range n)).toNat).current.getD
          i 0 = 0 := by
        rw [hform i hin, hcount i hin, hScast]
        ring
      rw [← List.getD_eq_getElem _ 0 hi1, hgd]
      simp
  calc wrrState s0 (wrrSumW s0.weights (List.range n)).toNat =
      ⟨(wrrState s0 (wrrSumW s0.weights (List.range n)).toNat).backends,
        (wrrState s0 (wrrSumW s0.weights (List.range n)).toNat).weights,
        (wrrState s0 (wrrSumW s0.weights (List.range n)).toNat).current⟩ := rfl
    _ = ⟨s0.backends, s0.weights, s0.current⟩ := by rw [hb, hw, hcz]
    _ = s0 := rfl

/-- Iterating the balancer state composes additively. -/
theorem wrrState_add (s0 : WeightedRoundRobinBalancer) :
    ∀ (a b : Nat), wrrState s0 (a + b) = wrrState (wrrState s0 a) b := by
  intro a b
  induction b with
  | zero => rfl
  | succ b ih =>
      show wrrState s0 (a + b + 1) = (wrrState (wrrState s0 a) b).nextBackendIdx.2
      rw [wrrState, ih]

/-- The selection stream is periodic with period `Σw`. -/
theorem wrrSel_periodic (s0 : WeightedRoundRobinBalancer) (n : Nat)
    (hn : s0.backends.length = n) (hwlen : s0.weights.length = n)
    (hcur : s0.current = List.replicate n 0)
    (hel : ∀ b ∈ s0.backends, b.canAcceptConnection = true)
    (hpos : ∀ x ∈ s0.weights, 1 ≤ x) (h1 : 1 ≤ n) :
    ∀ u : Nat, wrrSel s0 (u + (wrrSumW s0.weights (List.range n)).toNat) = wrrSel s0 u := by
  intro u
  unfold wrrSel
  rw [Nat.add_comm, wrrState_add, wrr_state_return s0 n hn hwlen hcur hel hpos h1]

/-- Splitting a range sum of naturals at `a`. -/
theorem sum_range_split (g : Nat → Nat) :
    ∀ (b a : Nat), Finset.sum (Finset.range (a + b)) g =
      Finset.sum (Finset.range a) g + Finset.sum (Finset.range b) (fun j => g (a + j)) := by
  intro b
  induction b with
  | zero => intro a; simp
  | succ b ih =>
      intro a
      have : a + (b + 1) = (a + b) + 1 := by omega
      rw [this, Finset.sum_range_succ, ih a, Finset.sum_range_succ]
      omega

/-- A window of length `P` of a `P`-periodic stream has the same sum
wherever it starts. -/
theorem periodic_sum_shift (g : Nat → Nat) (P : Nat)
    (hper : ∀ u : Nat, g (u + P) = g u) :
    ∀ t : Nat, Finset.sum (Finset.range P) (fun j => g (t + j)) =
      Finset.sum (Finset.range P) g := by
  intro t
  induction t with
  | zero => simp
  | succ t ih =>
      have hsucc1 : Finset.sum (Finset.range (P + 1)) (fun j => g (t + j)) =
          Finset.sum (Finset.range P) (fun j => g (t + j)) + g (t + P) :=
        Finset.sum_range_succ _ P
      have hsucc2 : Finset.sum (Finset.range (P + 1)) (fun j => g (t + j)) =
          Finset.sum (Finset.range P) (fun j => g (t + 1 + j)) + g t := by
        rw [Finset.sum_range_succ']
        congr 1
        exact Finset.sum_congr rfl (fun j _ => by
          rw [show t + (j + 1) = t + 1 + j from by omega])
      have hcancel : Finset.sum (Finset.range P) (fun j => g (t + j)) + g t =
          Finset.sum (Finset.range P) (fun j => g (t + 1 + j)) + g t := by
        rw [← hper t, ← hsucc1, hsucc2, hper t]
      have := Nat.add_right_cancel hcancel
      rw [← this, ih]

/-- A window of length `k·P` of a `P`-periodic stream sums to `k` times
one period. -/
theorem periodic_sum_window (g : Nat → Nat) (P : Nat)
    (hper : ∀ u : Nat, g (u + P) = g u) :
    ∀ (k t : Nat), Finset.sum (Finset.range (k * P)) (fun j => g (t + j)) =
      k * Finset.sum (Finset.range P) g := by
  intro k
  induction k with
  | zero => intro t; simp
  | succ k ih =>
      intro t
      have hlen : (k + 1) * P = k * P + P := by ring
      rw [hlen, sum_range_split (fun j => g (t + j)) P (k * P)]
      rw [ih t]
      have : Finset.sum (Finset.range P) (fun j => g (t + (k * P + j))) =
          Finset.sum (Finset.range P) g := by
        rw [Finset.sum_congr rfl (fun j _ => by
          rw [show t + (k * P + j) = (t + k * P) + j from by omega])]
        exact periodic_sum_shift g P hper (t + k * P)
      rw [this]
      ring

/-- Selection counts as indicator sums. -/
theorem wrrSelCount_eq_sum (s0 : WeightedRoundRobinBalancer) (t L i : Nat) :
    wrrSelCount s0 t L i =
      Finset.sum (Finset.range L) (fun j => if wrrSel s0 (t + j) = some i then 1 else 0) :=
  Finset.card_filter _ _

/-- C3: from a fresh weighted-round-robin balancer whose backends are
all eligible throughout (health never flips, caps never bind — which
the selection itself preserves, as it only mutates running weights) and
whose static weights are all at least one, every window of `k·Σwᵢ`
consecutive `NextBackend` calls — wherever it starts — selects backend
`i` exactly `k·wᵢ` times. -/
theorem weightedRoundRobin_fairness :
    ∀ (s0 : WeightedRoundRobinBalancer) (n : Nat),
      s0.backends.length = n →
      s0.weights.length = n →
      s0.current = List.replicate n 0 →
      (∀ b ∈ s0.backends, b.canAcceptConnection = true) →
      (∀ x ∈ s0.weights, 1 ≤ x) →
      ∀ i, i < n → ∀ t k : Nat,
        wrrSelCount s0 t (k * (wrrSumW s0.weights (List.range n)).toNat) i =
          k * (s0.weights.getD i 0).toNat := by
  intro s0 n hn hwlen hcur hel hpos i hi t k
  have h1 : 1 ≤ n := Nat.one_le_iff_ne_zero.mpr (by omega)
  have hper : ∀ u : Nat,
      (fun u => if wrrSel s0 u = some i then 1 else 0)
        (u + (wrrSumW s0.weights (List.range n)).toNat) =
      (fun u => if wrrSel s0 u = some i then 1 else 0) u := by
    intro u
    simp only
    rw [wrrSel_periodic s0 n hn hwlen hcur hel hpos h1 u]
  rw [wrrSelCount_eq_sum]
  rw [periodic_sum_window (fun u => if wrrSel s0 u = some i then 1 else 0)
    (wrrSumW s0.weights (List.range n)).toNat hper k t]
  have hone : Finset.sum (Finset.range (wrrSumW s0.weights (List.range n)).toNat)
      (fun u => if wrrSel s0 u = some i then 1 else 0) =
      wrrSelCount s0 0 (wrrSumW s0.weights (List.range n)).toNat i := by
    rw [wrrSelCount_eq_sum]
    exact Finset.sum_congr rfl (fun j _ => by rw [Nat.zero_add])
  rw [hone]
  have hcint := wrr_count_eq s0 n hn hwlen hcur hel hpos h1 i hi
  have : wrrSelCount s0 0 (wrrSumW s0.weights (List.range n)).toNat i =
      (s0.weights.getD i 0).toNat := by omega
  rw [this]

/-- First backend of the C3 scenario pool (weight 2). -/
def c3Backend1 : Backend := ⟨"http://x", 2, 0, 0, true⟩

/-- Second backend of the C3 scenario pool (weight 1). -/
def c3Backend2 : Backend := ⟨"http://y", 1, 0, 0, true⟩

/-- Third backend of the C3 scenario pool (weight 1). -/
def c3Backend3 : Backend := ⟨"http://z", 1, 0, 0, true⟩

/-- Fresh weighted balancer with weights `[2, 1, 1]`. -/
def c3Pool : WeightedRoundRobinBalancer :=
  ⟨[c3Backend1, c3Backend2, c3Backend3], [2, 1, 1], [0, 0, 0]⟩

/-- Witness for C3: with weights `[2, 1, 1]` a window of `1·Σw = 4`
consecutive selections (here the selection stream starts `0, 1, 2, 0`)
distributes as `[2, 1, 1]` over the three backends. -/
theorem weightedRoundRobin_fairness_witness :
    wrrSelCount c3Pool 0 (1 * (wrrSumW c3Pool.weights (List.range 3)).toNat) 0 =
      1 * (c3Pool.weights.getD 0 0).toNat ∧
    wrrSelCount c3Pool 0 4 0 = 2 ∧
    wrrSelCount c3Pool 0 4 1 = 1 ∧
    wrrSelCount c3Pool 0 4 2 = 1 := by
  refine ⟨weightedRoundRobin_fairness c3Pool 3 (by decide) (by decide) (by decide)
    (by decide) (by decide) 0 (by decide) 0 1, ?_, ?_, ?_⟩
  · decide
  · decide
  · decide

/-! ### Token-bucket rate limiter (C4) -/

/-- Modelled from the spec: the `golang.org/x/time/rate` limiter that
`TokenBucketLimiter` instantiates is not part of this repository's
sources.  Per the spec it is a token bucket "holding rate = `limit` per
second and burst capacity = `limit`" that starts full, refills
continuously at its rate up to the burst, and `Allow` consumes one
token exactly when at least one is available.  Time is measured in
seconds as an exact rational. -/
structure RateLimiterModel where
  rate : ℚ
  burst : ℚ
  tokens : ℚ
  lastTime : ℚ
deriving Repr, DecidableEq

/-- Modelled from the spec: `rate.NewLimiter(rate.Limit(limit), limit)`
creates a full bucket with rate and burst both `limit`. -/
def RateLimiterModel.new (limit : Int) (now : ℚ) : RateLimiterModel :=
  ⟨limit, limit, limit, now⟩

/-- Modelled from the spec: `limiter.Allow()` at absolute time `now` —
refill from the elapsed time, cap at the burst, then take one token if
at least one is available. -/
def RateLimiterModel.allowAt (l : RateLimiterModel) (now : ℚ) : Bool × RateLimiterModel :=
  let tokens := min l.burst (l.tokens + (now - l.lastTime) * l.rate)
  if 1 ≤ tokens then (true, ⟨l.rate, l.burst, tokens - 1, now⟩)
  else (false, ⟨l.rate, l.burst, tokens, now⟩)

/-- `TokenBucketLimiter`: the per-key bucket map (`buckets
map[string]*rate.Limiter`), as an association list. -/
structure TokenBucketLimiter where
  buckets : List (String × RateLimiterModel)
deriving Repr, DecidableEq

/-- Map lookup (`tbl.buckets[key]`). -/
def lookupBucket : List (String × RateLimiterModel) → String → Option RateLimiterModel
  | [], _ => none
  | (k, l) :: rest, key => if k = key then some l else lookupBucket rest key

/-- Map store (`tbl.buckets[key] = limiter`): replace the key's entry or
append a fresh one. -/
def storeBucket : List (String × RateLimiterModel) → String → RateLimiterModel →
    List (String × RateLimiterModel)
  | [], key, l => [(key, l)]
  | (k, l0) :: rest, key, l =>
      if k = key then (k, l) :: rest else (k, l0) :: storeBucket rest key l

/-- `TokenBucketLimiter.Allow`: look the key's limiter up, lazily
creating it with rate = burst = `limit` on first use, then delegate to
the limiter. -/
def TokenBucketLimiter.allow (tbl : TokenBucketLimiter) (now : ℚ) (key : String)
    (limit : Int) : Bool × TokenBucketLimiter :=
  let limiter := match lookupBucket tbl.buckets key with
    | some l => l
    | none => RateLimiterModel.new limit now
  let r := limiter.allowAt now
  (r.1, ⟨storeBucket tbl.buckets key r.2⟩)

/-- Consecutive `Allow` calls for one key at the given times. -/
def tblAllowSeq (tbl : TokenBucketLimiter) (key : String) (limit : Int) :
    List ℚ → List Bool
  | [] => []
  | t :: ts =>
      let r := tbl.allow t key limit
      r.1 :: tblAllowSeq r.2 key limit ts

/-- Looking up the key just stored. -/
theorem lookupBucket_store_self :
    ∀ (bs : List (String × RateLimiterModel)) (key : String) (l : RateLimiterModel),
      lookupBucket (storeBucket bs key l) key = some l := by
  intro bs
  induction bs with
  | nil =>
      intro key l
      simp [storeBucket, lookupBucket]
  | cons hd rest ih =>
      intro key l
      obtain ⟨k, l0⟩ := hd
      rw [storeBucket]
      by_cases hk : k = key
      · rw [if_pos hk, lookupBucket, if_pos hk]
      · rw [if_neg hk, lookupBucket, if_neg hk]
        exact ih key l

/-- Storing one key leaves every other key's entry unchanged. -/
theorem lookupBucket_store_ne :
    ∀ (bs : List (String × RateLimiterModel)) (key k' : String) (l : RateLimiterModel),
      k' ≠ key → lookupBucket (storeBucket bs key l) k' = lookupBucket bs k' := by
  intro bs
  induction bs with
  | nil =>
      intro key k' l hne
      have hnk : ¬key = k' := fun h => hne h.symm
      simp [storeBucket, lookupBucket, hnk]
  | cons hd rest ih =>
      intro key k' l hne
      obtain ⟨k, l0⟩ := hd
      rw [storeBucket]
      by_cases hk : k = key
      · rw [if_pos hk, lookupBucket, lookupBucket]
        have : ¬k = k' := by rw [hk]; exact fun h => hne h.symm
        rw [if_neg this, if_neg this]
      · rw [if_neg hk, lookupBucket, lookupBucket]
        by_cases hk' : k = k'
        · rw [if_pos hk', if_pos hk']
        · rw [if_neg hk', if_neg hk']
          exact ih key k' l hne

/-- C4: the token-bucket limiter keeps one lazily created limiter per
key with rate = burst = `limit`; an existing key's limiter is reused
(other keys untouched); and with `limit = 5`, six instantaneous `Allow`
calls for one key yield five admissions and one denial, while a further
call one second later is admitted again. -/
theorem tokenBucket_per_key :
    ∀ (tbl : TokenBucketLimiter) (now : ℚ) (key : String) (limit : Int),
      (lookupBucket tbl.buckets key = none →
        ∃ l', lookupBucket ((tbl.allow now key limit).2).buckets key = some l' ∧
          l'.rate = (limit : ℚ) ∧ l'.burst = (limit : ℚ)) ∧
      (∀ l, lookupBucket tbl.buckets key = some l →
        lookupBucket ((tbl.allow now key limit).2).buckets key =
          some (l.allowAt now).2) ∧
      (∀ k', k' ≠ key →
        lookupBucket ((tbl.allow now key limit).2).buckets k' =
          lookupBucket tbl.buckets k') ∧
      (tblAllowSeq ⟨[]⟩ key 5 [0, 0, 0, 0, 0, 0, 1] =
        [true, true, true, true, true, false, true]) := by
  intro tbl now key limit
  refine ⟨?_, ?_, ?_, ?_⟩
  · intro hnone
    rw [TokenBucketLimiter.allow]
    simp only [hnone]
    refine ⟨((RateLimiterModel.new limit now).allowAt now).2,
      lookupBucket_store_self _ _ _, ?_, ?_⟩
    · rw [RateLimiterModel.allowAt, RateLimiterModel.new]
      by_cases h : (1 : ℚ) ≤ min (limit : ℚ) ((limit : ℚ) + (now - now) * limit)
      · rw [if_pos h]
      · rw [if_neg h]
    · rw [RateLimiterModel.allowAt, RateLimiterModel.new]
      by_cases h : (1 : ℚ) ≤ min (limit : ℚ) ((limit : ℚ) + (now - now) * limit)
      · rw [if_pos h]
      · rw [if_neg h]
  · intro l hsome
    rw [TokenBucketLimiter.allow]
    simp only [hsome]
    exact lookupBucket_store_self _ _ _
  · intro k' hne
    rw [TokenBucketLimiter.allow]
    exact lookupBucket_store_ne _ _ _ _ hne
  · norm_num [tblAllowSeq, TokenBucketLimiter.allow, lookupBucket, storeBucket,
      RateLimiterModel.allowAt, RateLimiterModel.new, min_def]

/-- Witness for C4: the first call for a fresh key creates the bucket
with rate and burst `5`, and the spec's six-burst-plus-one scenario
evaluates as claimed. -/
theorem tokenBucket_per_key_witness :
    (∃ l', lookupBucket (((⟨[]⟩ : TokenBucketLimiter).allow 0 "k" 5).2).buckets "k" =
        some l' ∧ l'.rate = ((5 : Int) : ℚ) ∧ l'.burst = ((5 : Int) : ℚ)) ∧
    tblAllowSeq ⟨[]⟩ "k" 5 [0, 0, 0, 0, 0, 0, 1] =
      [true, true, true, true, true, false, true] :=
  ⟨(tokenBucket_per_key ⟨[]⟩ 0 "k" 5).1 rfl, (tokenBucket_per_key ⟨[]⟩ 0 "k" 5).2.2.2⟩

/-! ### Rate-limit key composition (C5) -/

/-- `GenerateRateLimitKey`: prefer `user:<id>:<path>` for a non-empty
user id, else `ip:<clientIP>:<path>`. -/
def generateRateLimitKey (clientIP userID path : String) : String :=
  if userID ≠ "" then "user:" ++ userID ++ ":" ++ path
  else "ip:" ++ clientIP ++ ":" ++ path

/-- `fmt.Sprintf("%v", v)` applied to the `user_id` context value: gin's
`c.Get` yields a nil interface when the key was never set, and Go
renders a nil interface as the string `<nil>`. -/
def goFmtValue : Option String → String
  | none => "<nil>"
  | some s => s

/-- The key computed by `routeRateLimitMiddleware` (and identically by
`RateLimitMiddleware.Handle`): format the context's `user_id` with
`%v`, then call `GenerateRateLimitKey`. -/
def routeRateLimitKey (ctxUserID : Option String) (clientIP path : String) : String :=
  generateRateLimitKey clientIP (goFmtValue ctxUserID) path

/-- C5 (bug evidence): an unauthenticated request — no `user_id` in the
context — is keyed `user:<nil>:<path>`, which does not start with `ip:`
and does not contain the client IP; an authenticated request is keyed
`user:<id>:<path>` as specified. -/
theorem rateLimitKey_unauthenticated_bug :
    routeRateLimitKey none "10.0.0.7" "/api/orders" = "user:<nil>:/api/orders" ∧
    (routeRateLimitKey none "10.0.0.7" "/api/orders").take 3 ≠ "ip:" ∧
    routeRateLimitKey none "203.0.113.9" "/api/orders" =
      routeRateLimitKey none "10.0.0.7" "/api/orders" ∧
    routeRateLimitKey (some "alice") "10.0.0.7" "/api/orders" =
      "user:alice:/api/orders" := by
  refine ⟨by decide, by decide, by decide, by decide⟩

/-! ### Transport-failure handling in the reverse proxy (C7) -/

/-- The `ErrorHandler` installed by `createReverseProxy`: it logs, sets
a JSON content type, writes status 502 with an error body, and touches
nothing else — in particular it never calls `SetHealthy` or
`UpdateBackendHealth`, so the selected backend's state is returned
unchanged. -/
def reverseProxyErrorHandler (backend : Backend) : (Nat × String) × Backend :=
  ((502, "\x7b\"error\": \"后端服务错误\"\x7d"), backend)

/-- Counterexample to C7: after a transport-level failure the handler
has answered 502 but the backend is still flagged healthy, so it is not
marked unhealthy immediately and remains selectable. -/
theorem transportError_leaves_backend_healthy :
    (reverseProxyErrorHandler c1PoolA).1.1 = 502 ∧
    (reverseProxyErrorHandler c1PoolA).2.healthy = true ∧
    (RoundRobinBalancer.nextBackend
      { backends := [(reverseProxyErrorHandler c1PoolA).2], current := 0 } "6.6.6.6").1 =
      some c1PoolA := by
  refine ⟨by decide, by decide, by decide⟩

/-- C7 (amended): on transport-level failure the dispatcher responds
502 to the caller but leaves the selected backend's state — including
its health flag — completely unchanged; the flag only changes at the
next health-check tick or through the admin endpoint. -/
theorem transportError_responds_502_no_marking :
    ∀ b : Backend, (reverseProxyErrorHandler b).1.1 = 502 ∧
      (reverseProxyErrorHandler b).2 = b := by
  intro b
  exact ⟨rfl, rfl⟩

/-! ### Cache middleware (C6) -/

/-- `cache.GenerateCacheKey(prefix, path, method, params)`:
`prefix:method:path` followed by `:k=v` per parameter (the middleware
always passes `nil` parameters). -/
def generateCacheKey (pre path method : String) (params : List (String × String)) :
    String :=
  params.foldl (fun key kv => key ++ ":" ++ kv.1 ++ "=" ++ kv.2)
    (pre ++ ":" ++ method ++ ":" ++ path)

/-- The request data the cache middleware inspects. -/
structure CacheRequest where
  method : String
  path : String
  rawQuery : String
deriving Repr, DecidableEq

/-- The downstream (rest-of-chain) response the wrapped writer
captures: final status and accumulated body. -/
structure DownstreamResponse where
  status : Int
  body : String
deriving Repr, DecidableEq

/-- Observable outcome of one `CacheMiddleware.Handle` execution:
whether the chain continued, the cache-status marker header, the
response sent, and the store performed (key, body, TTL in
nanoseconds). -/
structure CacheOutcome where
  callsNext : Bool
  xCache : Option String
  status : Int
  body : String
  stored : Option (String × String × Int)
deriving Repr, DecidableEq

/-- `CacheMiddleware` state: the TTL it was constructed with
(`defaultTTL`, a Go `time.Duration` in nanoseconds). -/
structure CacheMiddlewareModel where
  defaultTTL : Int
deriving Repr, DecidableEq

/-- The cache key the middleware computes: `GenerateCacheKey("response",
path, method, nil)` plus `:rawQuery` when a query is present. -/
def cacheMiddlewareKey (req : CacheRequest) : String :=
  generateCacheKey "response" req.path req.method [] ++
    (if req.rawQuery ≠ "" then ":" ++ req.rawQuery else "")

/-- `CacheMiddleware.Handle`: pass non-GET requests through untouched;
on a hit (`Get` returned a non-empty string) short-circuit with the
cached body, status 200 and an `X-Cache: HIT` header; on a miss mark
`X-Cache: MISS`, run the chain through the capturing writer, and store
the captured body under the middleware's own `defaultTTL` only when the
final status is exactly 200 (and the body is non-empty). -/
def CacheMiddlewareModel.handle (c : CacheMiddlewareModel) (req : CacheRequest)
    (cached : String) (downstream : DownstreamResponse) : CacheOutcome :=
  if req.method ≠ "GET" then
    ⟨true, none, downstream.status, downstream.body, none⟩
  else if cached ≠ "" then
    ⟨false, some "HIT", 200, cached, none⟩
  else
    ⟨true, some "MISS", downstream.status, downstream.body,
      if downstream.status = 200 ∧ downstream.body ≠ "" then
        some (cacheMiddlewareKey req, downstream.body, c.defaultTTL)
      else none⟩

/-- The single cache middleware instance the gateway registers
(`NewCacheMiddleware(g.cache, 5*time.Minute)`) and applies to every
cache-enabled route. -/
def gatewayCacheMiddleware : CacheMiddlewareModel := ⟨5 * 60 * 1000000000⟩

/-- Per-route configuration relevant to caching (`config.RouteConfig`):
the route's own `cache_ttl` is carried here. -/
structure RouteConfig where
  path : String
  cacheEnabled : Bool
  cacheTTL : Int
deriving Repr, DecidableEq

/-- Counterexample to C6's TTL clause: on a route configured with a
60-second cache TTL, a cached 200 GET response is stored with the
middleware's fixed 5-minute default TTL, not the route's TTL. -/
theorem cacheStore_ignores_route_ttl :
    (gatewayCacheMiddleware.handle ⟨"GET", "/api/items", ""⟩ "" ⟨200, "B"⟩).stored =
      some ("response:GET:/api/items", "B", 300000000000) ∧
    (RouteConfig.mk "/api" true 60000000000).cacheTTL ≠ 300000000000 := by
  refine ⟨by decide, by decide⟩

/-- C6 (amended): the cache middleware acts only on GET requests —
others pass through with no marker and no store; a hit short-circuits
with the stored body, status 200 and the `HIT` marker; a miss lets the
chain run and stores the captured body exactly when the final status is
200 and the body is non-empty, always under the middleware's fixed
5-minute default TTL (never the route's configured cache TTL). -/
theorem cacheMiddleware_behavior :
    ∀ (req : CacheRequest) (cached : String) (downstream : DownstreamResponse),
      (req.method ≠ "GET" →
        gatewayCacheMiddleware.handle req cached downstream =
          ⟨true, none, downstream.status, downstream.body, none⟩) ∧
      (req.method = "GET" → cached ≠ "" →
        gatewayCacheMiddleware.handle req cached downstream =
          ⟨false, some "HIT", 200, cached, none⟩) ∧
      (req.method = "GET" → cached = "" →
        (gatewayCacheMiddleware.handle req cached downstream).callsNext = true ∧
        (gatewayCacheMiddleware.handle req cached downstream).xCache = some "MISS" ∧
        (∀ k b ttl,
          (gatewayCacheMiddleware.handle req cached downstream).stored = some (k, b, ttl) →
            downstream.status = 200 ∧ b = downstream.body ∧
              ttl = gatewayCacheMiddleware.defaultTTL) ∧
        (downstream.status = 200 → downstream.body ≠ "" →
          (gatewayCacheMiddleware.handle req cached downstream).stored =
            some (cacheMiddlewareKey req, downstream.body,
              gatewayCacheMiddleware.defaultTTL))) := by
  intro req cached downstream
  refine ⟨?_, ?_, ?_⟩
  · intro hm
    rw [CacheMiddlewareModel.handle, if_pos hm]
  · intro hm hc
    rw [CacheMiddlewareModel.handle, if_neg (by simp [hm]), if_pos hc]
  · intro hm hc
    rw [CacheMiddlewareModel.handle, if_neg (by simp [hm]), if_neg (by simp [hc])]
    refine ⟨rfl, rfl, ?_, ?_⟩
    · intro k b ttl hst
      by_cases h2 : downstream.status = 200 ∧ downstream.body ≠ ""
      · rw [if_pos h2] at hst
        simp only [Option.some.injEq, Prod.mk.injEq] at hst
        exact ⟨h2.1, hst.2.1.symm, hst.2.2.symm⟩
      · rw [if_neg h2] at hst
        cases hst
    · intro hs hb
      simp only
      rw [if_pos ⟨hs, hb⟩]

/-- Witness for C6: concrete runs of the three branches — a POST passes
through, a warm GET hits, and a cold GET with a 200 body stores under
the default TTL. -/
theorem cacheMiddleware_behavior_witness :
    gatewayCacheMiddleware.handle ⟨"POST", "/p", ""⟩ "" ⟨201, "x"⟩ =
      ⟨true, none, 201, "x", none⟩ ∧
    gatewayCacheMiddleware.handle ⟨"GET", "/p", ""⟩ "warm" ⟨500, "y"⟩ =
      ⟨false, some "HIT", 200, "warm", none⟩ ∧
    (gatewayCacheMiddleware.handle ⟨"GET", "/p", "a=1"⟩ "" ⟨200, "body"⟩).stored =
      some (cacheMiddlewareKey ⟨"GET", "/p", "a=1"⟩, "body",
        gatewayCacheMiddleware.defaultTTL) := by
  refine ⟨?_, ?_, ?_⟩
  · exact (cacheMiddleware_behavior ⟨"POST", "/p", ""⟩ "" ⟨201, "x"⟩).1 (by decide)
  · exact (cacheMiddleware_behavior ⟨"GET", "/p", ""⟩ "warm" ⟨500, "y"⟩).2.1 rfl
      (by decide)
  · exact ((cacheMiddleware_behavior ⟨"GET", "/p", "a=1"⟩ "" ⟨200, "body"⟩).2.2 rfl
      rfl).2.2.2 rfl (by decide)

/-! ### Connection accounting (C8) -/

/-- Connection-counter events a proxied request can emit. -/
inductive ConnEvent where
  | inc : ConnEvent
  | dec : ConnEvent
deriving Repr, DecidableEq

/-- The counter events of one dispatched request, in program order:
`proxyHandler` calls `backend.AddConnection()` once right after a
successful selection and `defer backend.RemoveConnection()` guarantees
exactly one decrement on every exit path (success, backend error or
timeout), after the proxy call returns. -/
def proxyRequestEvents : List ConnEvent := [ConnEvent.inc, ConnEvent.dec]

/-- Effect of one event on the shared counter (`atomic.AddInt64` with
`+1` / `-1`). -/
def connDelta : ConnEvent → Int
  | ConnEvent.inc => 1
  | ConnEvent.dec => -1

/-- Final counter value after a trace, starting from `c`. -/
def runCounter (c : Int) : List ConnEvent → Int
  | [] => c
  | e :: rest => runCounter (c + connDelta e) rest

/-- Whether the counter stays non-negative at every point of a trace
started from `c`. -/
def prefixesNonneg (c : Int) : List ConnEvent → Bool
  | [] => decide (0 ≤ c)
  | e :: rest => decide (0 ≤ c) && prefixesNonneg (c + connDelta e) rest

/-- Occurrences of an event in a trace. -/
def countEvent (x : ConnEvent) : List ConnEvent → Nat
  | [] => 0
  | e :: rest => (if e = x then 1 else 0) + countEvent x rest

/-- `Interleave ls tr`: `tr` is an interleaving of the per-request
traces `ls`, each request's events kept in program order — the set of
global histories the concurrent requests can produce. -/
inductive Interleave : List (List ConnEvent) → List ConnEvent → Prop where
  | done : ∀ ls, (∀ l ∈ ls, l = []) → Interleave ls []
  | take : ∀ (ls₁ : List (List ConnEvent)) (x : ConnEvent) (xs : List ConnEvent)
      (ls₂ : List (List ConnEvent)) (t : List ConnEvent),
      Interleave (ls₁ ++ xs :: ls₂) t →
      Interleave (ls₁ ++ (x :: xs) :: ls₂) (x :: t)

/-- Number of pending request traces whose increment already happened
(i.e. whose remaining trace is exactly `[dec]`). -/
def pendingDecs : List (List ConnEvent) → Nat
  | [] => 0
  | l :: rest => (if l = [ConnEvent.dec] then 1 else 0) + pendingDecs rest

/-- Total residual occurrences of an event over all pending traces. -/
def totalCount (x : ConnEvent) : List (List ConnEvent) → Nat
  | [] => 0
  | l :: rest => countEvent x l + totalCount x rest

/-- `pendingDecs` distributes over append. -/
theorem pendingDecs_append :
    ∀ a b : List (List ConnEvent), pendingDecs (a ++ b) = pendingDecs a + pendingDecs b := by
  intro a b
  induction a with
  | nil => simp [pendingDecs]
  | cons l rest ih =>
      rw [List.cons_append, pendingDecs, pendingDecs, ih]
      omega

/-- `totalCount` distributes over append. -/
theorem totalCount_append (x : ConnEvent) :
    ∀ a b : List (List ConnEvent), totalCount x (a ++ b) = totalCount x a + totalCount x b := by
  intro a b
  induction a with
  | nil => simp [totalCount]
  | cons l rest ih =>
      rw [List.cons_append, totalCount, totalCount, ih]
      omega

/-- Interleaving conserves event counts: the trace contains exactly the
events still pending in the request traces. -/
theorem interleave_count (x : ConnEvent) :
    ∀ (ls : List (List ConnEvent)) (tr : List ConnEvent),
      Interleave ls tr → countEvent x tr = totalCount x ls := by
  intro ls tr h
  induction h with
  | done ls hall =>
      rw [countEvent]
      induction ls with
      | nil => rfl
      | cons l rest ih =>
          rw [totalCount, hall l (List.mem_cons_self l rest), countEvent,
            ← ih (fun l hl => hall l (List.mem_cons_of_mem _ hl))]
  | take ls₁ y xs ls₂ t _ ih =>
      rw [countEvent, ih, totalCount_append, totalCount_append, totalCount, totalCount,
        countEvent]
      omega

/-- No connection is held when every pending trace is empty. -/
theorem pendingDecs_all_nil :
    ∀ ls : List (List ConnEvent), (∀ l ∈ ls, l = []) → pendingDecs ls = 0 := by
  intro ls
  induction ls with
  | nil => intro _; rfl
  | cons l rest ih =>
      intro hall
      rw [pendingDecs, hall l (List.mem_cons_self l rest),
        ih (fun l hl => hall l (List.mem_cons_of_mem _ hl))]
      rfl

/-- No connection is held before any request has run. -/
theorem pendingDecs_replicate (n : Nat) :
    pendingDecs (List.replicate n proxyRequestEvents) = 0 := by
  induction n with
  | zero => rfl
  | succ m ih =>
      rw [List.replicate_succ, pendingDecs, ih]
      rfl

/-- Master invariant of the interleaved histories: when every pending
trace is a suffix of a request trace and the counter equals the number
of held connections, the counter stays non-negative everywhere and ends
at zero once everything completes. -/
theorem interleave_invariant :
    ∀ (ls : List (List ConnEvent)) (tr : List ConnEvent),
      Interleave ls tr →
      (∀ l ∈ ls, l = proxyRequestEvents ∨ l = [ConnEvent.dec] ∨ l = []) →
      prefixesNonneg (pendingDecs ls) tr = true ∧
        runCounter (pendingDecs ls) tr = 0 := by
  intro ls tr h
  induction h with
  | done ls hall =>
      intro _
      rw [pendingDecs_all_nil ls hall]
      exact ⟨by rw [prefixesNonneg]; rfl, by rw [runCounter]; rfl⟩
  | take ls₁ x xs ls₂ t _ ih =>
      intro hpend
      have hx : (x :: xs) = proxyRequestEvents ∨ (x :: xs) = [ConnEvent.dec] ∨
          (x :: xs) = ([] : List ConnEvent) := by
        apply hpend
        rw [List.mem_append]
        exact Or.inr (List.mem_cons_self _ _)
      have hrest : ∀ l ∈ ls₁ ++ xs :: ls₂,
          l = proxyRequestEvents ∨ l = [ConnEvent.dec] ∨ l = [] := by
        intro l hl
        rw [List.mem_append, List.mem_cons] at hl
        rcases hl with h1 | h2 | h3
        · exact hpend l (by rw [List.mem_append]; exact Or.inl h1)
        · subst h2
          rcases hx with h | h | h
          · rw [proxyRequestEvents] at h
            injection h with _ h
            exact Or.inr (Or.inl h)
          · injection h with _ h
            exact Or.inr (Or.inr h)
          · cases h
        · exact hpend l (by
            rw [List.mem_append, List.mem_cons]
            exact Or.inr (Or.inr h3))
      rcases hx with h | h | h
      · -- the request performs its increment
        rw [proxyRequestEvents] at h
        injection h with hx1 hx2
        subst hx1; subst hx2
        have hcount : pendingDecs (ls₁ ++ [ConnEvent.dec] :: ls₂) =
            pendingDecs (ls₁ ++ (ConnEvent.inc :: [ConnEvent.dec]) :: ls₂) + 1 := by
          rw [pendingDecs_append, pendingDecs_append, pendingDecs, pendingDecs,
            if_pos rfl, if_neg (by decide)]
          omega
        obtain ⟨hpre, hrun⟩ := ih hrest
        rw [hcount] at hpre hrun
        constructor
        · rw [prefixesNonneg]
          rw [Bool.and_eq_true]
          refine ⟨by simp only [decide_eq_true_eq]; positivity, ?_⟩
          have : (pendingDecs (ls₁ ++ (ConnEvent.inc :: [ConnEvent.dec]) :: ls₂) : Int) +
              connDelta ConnEvent.inc =
              ((pendingDecs (ls₁ ++ (ConnEvent.inc :: [ConnEvent.dec]) :: ls₂) + 1 : Nat) :
                Int) := by
            rw [connDelta]; push_cast; ring
          rw [this]
          exact hpre
        · rw [runCounter]
          have : (pendingDecs (ls₁ ++ (ConnEvent.inc :: [ConnEvent.dec]) :: ls₂) : Int) +
              connDelta ConnEvent.inc =
              ((pendingDecs (ls₁ ++ (ConnEvent.inc :: [ConnEvent.dec]) :: ls₂) + 1 : Nat) :
                Int) := by
            rw [connDelta]; push_cast; ring
          rw [this]
          exact hrun
      · -- the request performs its decrement
        injection h with hx1 hx2
        subst hx1; subst hx2
        have hcount : pendingDecs (ls₁ ++ ([ConnEvent.dec]) :: ls₂) =
            pendingDecs (ls₁ ++ ([] : List ConnEvent) :: ls₂) + 1 := by
          rw [pendingDecs_append, pendingDecs_append, pendingDecs, pendingDecs,
            if_pos rfl, if_neg (by decide)]
          omega
        obtain ⟨hpre, hrun⟩ := ih hrest
        rw [hcount]
        constructor
        · rw [prefixesNonneg]
          rw [Bool.and_eq_true]
          refine ⟨by simp only [decide_eq_true_eq]; positivity, ?_⟩
          have : ((pendingDecs (ls₁ ++ ([] : List ConnEvent) :: ls₂) + 1 : Nat) : Int) +
              connDelta ConnEvent.dec =
              (pendingDecs (ls₁ ++ ([] : List ConnEvent) :: ls₂) : Int) := by
            rw [connDelta]; push_cast; ring
          rw [this]
          exact hpre
        · rw [runCounter]
          have : ((pendingDecs (ls₁ ++ ([] : List ConnEvent) :: ls₂) + 1 : Nat) : Int) +
              connDelta ConnEvent.dec =
              (pendingDecs (ls₁ ++ ([] : List ConnEvent) :: ls₂) : Int) := by
            rw [connDelta]; push_cast; ring
          rw [this]
          exact hrun
      · cases h

/-- Residual counts of `n` untouched request traces. -/
theorem totalCount_replicate (x : ConnEvent) (n : Nat) :
    totalCount x (List.replicate n proxyRequestEvents) = n * countEvent x proxyRequestEvents := by
  induction n with
  | zero => simp [List.replicate_zero, totalCount]
  | succ m ih =>
      rw [List.replicate_succ, totalCount, ih]
      ring

/-- C8: for any interleaved execution of `n` proxied requests against
one backend — each contributing exactly one increment followed by one
decrement, as `proxyHandler`'s `AddConnection`/deferred
`RemoveConnection` pair does — the trace has exactly `n` increments and
`n` decrements, the counter starting from zero is never negative at any
prefix, and it ends at zero. -/
theorem connection_accounting :
    ∀ (n : Nat) (tr : List ConnEvent),
      Interleave (List.replicate n proxyRequestEvents) tr →
      countEvent ConnEvent.inc tr = n ∧
      countEvent ConnEvent.dec tr = n ∧
      prefixesNonneg 0 tr = true ∧
      runCounter 0 tr = 0 := by
  intro n tr h
  have hpend : ∀ l ∈ List.replicate n proxyRequestEvents,
      l = proxyRequestEvents ∨ l = [ConnEvent.dec] ∨ l = [] := by
    intro l hl
    exact Or.inl (List.eq_of_mem_replicate hl)
  have hz : pendingDecs (List.replicate n proxyRequestEvents) = 0 :=
    pendingDecs_replicate n
  obtain ⟨hpre, hrun⟩ := interleave_invariant _ _ h hpend
  rw [hz] at hpre hrun
  refine ⟨?_, ?_, ?_, ?_⟩
  · rw [interleave_count _ _ _ h, totalCount_replicate]
    simp [proxyRequestEvents, countEvent]
  · rw [interleave_count _ _ _ h, totalCount_replicate]
    simp [proxyRequestEvents, countEvent]
  · exact_mod_cast hpre
  · exact_mod_cast hrun

/-- A concrete interleaving of two requests: both increments happen
before either decrement. -/
theorem interleave_two_requests :
    Interleave (List.replicate 2 proxyRequestEvents)
      [ConnEvent.inc, ConnEvent.inc, ConnEvent.dec, ConnEvent.dec] := by
  have h0 : Interleave [[], []] [] := Interleave.done _ (by decide)
  have h1 : Interleave [[], [ConnEvent.dec]] [ConnEvent.dec] := by
    have := Interleave.take [[]] ConnEvent.dec [] [] [] h0
    simpa using this
  have h2 : Interleave [[ConnEvent.dec], [ConnEvent.dec]] [ConnEvent.dec, ConnEvent.dec] := by
    have := Interleave.take [] ConnEvent.dec [] [[ConnEvent.dec]] [ConnEvent.dec] h1
    simpa using this
  have h3 : Interleave [[ConnEvent.dec], proxyRequestEvents]
      [ConnEvent.inc, ConnEvent.dec, ConnEvent.dec] := by
    have := Interleave.take [[ConnEvent.dec]] ConnEvent.inc [ConnEvent.dec] []
      [ConnEvent.dec, ConnEvent.dec] h2
    simpa [proxyRequestEvents] using this
  have h4 := Interleave.take [] ConnEvent.inc [ConnEvent.dec] [proxyRequestEvents]
    [ConnEvent.inc, ConnEvent.dec, ConnEvent.dec] h3
  simpa [proxyRequestEvents] using h4

/-- Witness for C8: the two-request interleaving above has two
increments, two decrements, never drives the counter negative, and
returns it to zero. -/
theorem connection_accounting_witness :
    countEvent ConnEvent.inc
        [ConnEvent.inc, ConnEvent.inc, ConnEvent.dec, ConnEvent.dec] = 2 ∧
      countEvent ConnEvent.dec
        [ConnEvent.inc, ConnEvent.inc, ConnEvent.dec, ConnEvent.dec] = 2 ∧
      prefixesNonneg 0 [ConnEvent.inc, ConnEvent.inc, ConnEvent.dec, ConnEvent.dec] = true ∧
      runCounter 0 [ConnEvent.inc, ConnEvent.inc, ConnEvent.dec, ConnEvent.dec] = 0 :=
  connection_accounting 2 _ interleave_two_requests

/-! ### Health-probe completion (C9) -/

/-- The observation record the checker writes into its status map on
every probe (timing fields carry no claim-relevant behaviour). -/
structure HealthStatus where
  healthy : Bool
  errorMessage : String
deriving Repr, DecidableEq

/-- Observable effect of `BackendHealthChecker.checkSingleBackend`: the
backend's (possibly updated) state, the status record written, the
`UpdateBackendHealth` call made on the owning balancer (if any), and
whether a transition log was emitted. -/
structure HealthCheckEffect where
  backend : Backend
  statusRecord : HealthStatus
  notifiedLB : Option (String × Bool)
  transitionLogged : Bool
deriving Repr, DecidableEq

/-- `checkSingleBackend`: always record the probe's outcome in the
status map; then, only when the computed health differs from the
backend's current flag, update the backend, notify the owning load
balancer and emit the transition log. -/
def checkSingleBackend (b : Backend) (probeHealthy : Bool) : HealthCheckEffect :=
  let status : HealthStatus := ⟨probeHealthy, if probeHealthy then "" else "健康检查失败"⟩
  if b.isHealthy ≠ probeHealthy then
    ⟨b.setHealthy probeHealthy, status, some (b.url, probeHealthy), true⟩
  else
    ⟨b, status, none, false⟩

/-- C9: the probe handler is edge-triggered — when the computed health
differs from the current flag it updates the backend, calls the owning
balancer's `UpdateBackendHealth` and logs the transition; when it
matches, the backend is left untouched and neither notification nor log
happens (only the observation record is refreshed). -/
theorem healthCheck_edge_triggered :
    ∀ (b : Backend) (p : Bool),
      (b.healthy ≠ p →
        (checkSingleBackend b p).backend = b.setHealthy p ∧
        (checkSingleBackend b p).notifiedLB = some (b.url, p) ∧
        (checkSingleBackend b p).transitionLogged = true) ∧
      (b.healthy = p →
        (checkSingleBackend b p).backend = b ∧
        (checkSingleBackend b p).notifiedLB = none ∧
        (checkSingleBackend b p).transitionLogged = false) ∧
      (checkSingleBackend b p).statusRecord.healthy = p := by
  intro b p
  refine ⟨?_, ?_, ?_⟩
  · intro hne
    rw [checkSingleBackend, if_pos (by rw [Backend.isHealthy]; exact hne)]
    exact ⟨rfl, rfl, rfl⟩
  · intro heq
    rw [checkSingleBackend, if_neg (by rw [Backend.isHealthy]; simp [heq])]
    exact ⟨rfl, rfl, rfl⟩
  · rw [checkSingleBackend]
    by_cases h : b.isHealthy ≠ p
    · rw [if_pos h]
    · rw [if_neg h]

/-- Witness for C9: a healthy backend failing a probe transitions (flag
cleared, balancer notified, logged); a healthy backend passing a probe
is untouched with no notification. -/
theorem healthCheck_edge_triggered_witness :
    ((checkSingleBackend c1PoolA false).backend = c1PoolA.setHealthy false ∧
      (checkSingleBackend c1PoolA false).notifiedLB = some (c1PoolA.url, false) ∧
      (checkSingleBackend c1PoolA false).transitionLogged = true) ∧
    ((checkSingleBackend c1PoolA true).backend = c1PoolA ∧
      (checkSingleBackend c1PoolA true).notifiedLB = none ∧
      (checkSingleBackend c1PoolA true).transitionLogged = false) :=
  ⟨(healthCheck_edge_triggered c1PoolA false).1 (by decide),
    (healthCheck_edge_triggered c1PoolA true).2.1 (by decide)⟩

/-! ### MemoryCache.Incr and the fixed-window limiter (C10) -/

/-- `MemoryCache`: the in-memory store's map, keyed by string.  The
expiration field of `cacheItem` is never consulted by `Incr` (which
overwrites it with the zero value) and carries no behaviour used by
this claim, so entries are just values. -/
structure MemoryCacheModel where
  data : List (String × String)
deriving Repr, DecidableEq

/-- Map lookup (`m.data[key]`). -/
def lookupMem : List (String × String) → String → Option String
  | [], _ => none
  | (k, v) :: rest, key => if k = key then some v else lookupMem rest key

/-- Map store (`m.data[key] = item`). -/
def storeMem : List (String × String) → String → String → List (String × String)
  | [], key, v => [(key, v)]
  | (k, v0) :: rest, key, v =>
      if k = key then (k, v) :: rest else (k, v0) :: storeMem rest key v

/-- `MemoryCache.Incr`: an absent key stores `"1"` and returns `1`; an
existing entry is replaced by the *length of its stored string plus
one*, formatted back to decimal (`val := len(item.value) + 1`). -/
def MemoryCacheModel.incr (m : MemoryCacheModel) (key : String) : Int × MemoryCacheModel :=
  match lookupMem m.data key with
  | none => (1, ⟨storeMem m.data key "1"⟩)
  | some v =>
      ((v.length : Int) + 1, ⟨storeMem m.data key (toString ((v.length : Int) + 1))⟩)

/-- Results of `n` successive `Incr` calls for one key. -/
def incrResults (m : MemoryCacheModel) (key : String) : Nat → List Int
  | 0 => []
  | n + 1 =>
      let r := m.incr key
      r.1 :: incrResults r.2 key n

/-- The core of `FixedWindowLimiter.Allow` against the memory cache:
increment the window's counter and admit iff `count <= limit` (the
`Expire` call on a fresh window touches only the expiration field, not
the stored value). -/
def fixedWindowAllowMem (m : MemoryCacheModel) (windowKey : String) (limit : Int) :
    Bool × MemoryCacheModel :=
  let r := m.incr windowKey
  (r.1 ≤ limit, r.2)

/-- Results of `n` successive fixed-window `Allow` calls within one
window. -/
def fwAllowResults (m : MemoryCacheModel) (windowKey : String) (limit : Int) :
    Nat → List Bool
  | 0 => []
  | n + 1 =>
      let r := fixedWindowAllowMem m windowKey limit
      r.1 :: fwAllowResults r.2 windowKey limit n

/-- Looking up the key just stored. -/
theorem lookupMem_store_self :
    ∀ (bs : List (String × String)) (key v : String),
      lookupMem (storeMem bs key v) key = some v := by
  intro bs
  induction bs with
  | nil =>
      intro key v
      simp [storeMem, lookupMem]
  | cons hd rest ih =>
      intro key v
      obtain ⟨k, v0⟩ := hd
      rw [storeMem]
      by_cases hk : k = key
      · rw [if_pos hk, lookupMem, if_pos hk]
      · rw [if_neg hk, lookupMem, if_neg hk]
        exact ih key v

/-- After any number of `Incr` calls past the first, the stored value
is a single character, so every later call returns `2`. -/
theorem incrResults_after_first :
    ∀ (n : Nat) (m : MemoryCacheModel) (key s : String),
      lookupMem m.data key = some s → s.length = 1 →
      incrResults m key n = List.replicate n 2 := by
  intro n
  induction n with
  | zero => intro _ _ _ _ _; rfl
  | succ n ih =>
      intro m key s hs hlen
      rw [incrResults]
      have hstep : m.incr key =
          (2, ⟨storeMem m.data key "2"⟩) := by
        simp only [MemoryCacheModel.incr, hs, hlen]
        rfl
      rw [hstep]
      rw [List.replicate_succ]
      refine congrArg (fun l => 2 :: l) ?_
      exact ih _ key "2" (lookupMem_store_self _ _ _) rfl

/-- Once the stored value is a single character, every fixed-window
`Allow` call in the window is admitted for any limit of at least two. -/
theorem fwAllowResults_after_first :
    ∀ (n : Nat) (m : MemoryCacheModel) (key s : String) (limit : Int),
      2 ≤ limit → lookupMem m.data key = some s → s.length = 1 →
      fwAllowResults m key limit n = List.replicate n true := by
  intro n
  induction n with
  | zero => intro _ _ _ _ _ _ _; rfl
  | succ n ih =>
      intro m key s limit hlim hs hlen
      rw [fwAllowResults]
      have hstep : fixedWindowAllowMem m key limit =
          (decide ((2 : Int) ≤ limit), ⟨storeMem m.data key "2"⟩) := by
        simp only [fixedWindowAllowMem, MemoryCacheModel.incr, hs, hlen]
        rfl
      rw [hstep, decide_eq_true hlim, List.replicate_succ]
      refine congrArg (fun l => true :: l) ?_
      exact ih _ key "2" limit hlim (lookupMem_store_self _ _ _) rfl

/-- C10: `MemoryCache.Incr` is length-based, not numeric — a fresh key
stores `"1"` and returns `1`, an existing entry returns and stores
`len(value)+1`; hence a key touched only by `Incr` yields `1, 2, 2, …`,
the fixed-window counter never exceeds `2`, and the limiter never
denies a request for any `limit ≥ 2`. -/
theorem memoryCache_incr_length_based :
    ∀ (m : MemoryCacheModel) (key v : String) (limit : Int) (n : Nat),
      (lookupMem m.data key = none →
        m.incr key = (1, ⟨storeMem m.data key "1"⟩)) ∧
      (lookupMem m.data key = some v →
        m.incr key = ((v.length : Int) + 1,
          ⟨storeMem m.data key (toString ((v.length : Int) + 1))⟩)) ∧
      (lookupMem m.data key = none →
        incrResults m key (n + 1) = 1 :: List.replicate n 2) ∧
      (2 ≤ limit → lookupMem m.data key = none →
        fwAllowResults m key limit n = List.replicate n true) := by
  intro m key v limit n
  refine ⟨?_, ?_, ?_, ?_⟩
  · intro hnone
    rw [MemoryCacheModel.incr, hnone]
  · intro hsome
    rw [MemoryCacheModel.incr, hsome]
  · intro hnone
    rw [incrResults]
    have hstep : m.incr key = (1, ⟨storeMem m.data key "1"⟩) := by
      rw [MemoryCacheModel.incr, hnone]
    rw [hstep]
    refine congrArg (fun l => (1 : Int) :: l) ?_
    exact incrResults_after_first n _ key "1" (lookupMem_store_self _ _ _) rfl
  · intro hlim hnone
    cases n with
    | zero => rfl
    | succ n =>
        rw [fwAllowResults]
        have hstep : fixedWindowAllowMem m key limit =
            (decide ((1 : Int) ≤ limit), ⟨storeMem m.data key "1"⟩) := by
          simp only [fixedWindowAllowMem, MemoryCacheModel.incr, hnone]
        rw [hstep, decide_eq_true (by omega : (1 : Int) ≤ limit), List.replicate_succ]
        refine congrArg (fun l => true :: l) ?_
        exact fwAllowResults_after_first n _ key "1" limit hlim
          (lookupMem_store_self _ _ _) rfl

/-- Witness for C10: concrete runs — a fresh key yields `1` and stores
`"1"`; a key holding `"22"` yields `length + 1 = 3`; three `Incr` calls
give `1, 2, 2`; three window checks under `limit = 2` all pass. -/
theorem memoryCache_incr_length_based_witness :
    (MemoryCacheModel.mk []).incr "k" = (1, MemoryCacheModel.mk [("k", "1")]) ∧
    (MemoryCacheModel.mk [("k", "22")]).incr "k" =
      (3, MemoryCacheModel.mk [("k", "3")]) ∧
    incrResults (MemoryCacheModel.mk []) "k" 3 = [1, 2, 2] ∧
    fwAllowResults (MemoryCacheModel.mk []) "k" 2 3 = [true, true, true] := by
  refine ⟨?_, ?_, ?_, ?_⟩
  · exact (memoryCache_incr_length_based (MemoryCacheModel.mk []) "k" "" 2 2).1
      (by decide)
  · exact (memoryCache_incr_length_based (MemoryCacheModel.mk [("k", "22")])
      "k" "22" 2 2).2.1 (by decide)
  · exact (memoryCache_incr_length_based (MemoryCacheModel.mk []) "k" "" 2 2).2.2.1
      (by decide)
  · exact (memoryCache_incr_length_based (MemoryCacheModel.mk []) "k" "" 2 3).2.2.2
      (by omega) (by decide)
